import Mathlib

/-!
# Verification of `multiwfn_cli/cp_parser.py`

A shallow embedding of the critical-point output parser and aggregator of
`multiwfn_cli/cp_parser.py`, together with proofs about the claims of the
specification.

Modelling conventions:
* Python strings are Lean `String`s (a list of characters); string helpers
  (`strip`, `rstrip`, `lower`, `splitlines`, `replace`, `in`) are modelled by
  executable functions below.  `str.lower()` is modelled by ASCII lowering
  (`Char.toLower`); Unicode special-case lowerings that expand to several
  characters are not modelled (they are mapped to `_` by the sanitizer either
  way).  Python's whitespace set for `strip`/`\s` is modelled by the ASCII
  whitespace characters; `splitlines` is modelled for the `\n` terminator,
  the one produced by the parser itself when it joins raw lines.
* A Python float parsed from a numeric token is represented by the token text
  itself (constructor `Value.vfloat`); no claim compares float values
  numerically, only structure, types and shapes.
* Fallible code is modelled with `Except PyErr`: the parser can raise
  `AttributeError` (appending to a non-list `values` entry) and `ValueError`
  (`np.array(matrix_rows, dtype=float)` on ragged rows, NumPy semantics).
-/

/-- ASCII whitespace characters stripped by Python `str.strip()` and matched
by `\s` (the Unicode-only whitespace code points are not modelled). -/
def pyIsSpace (c : Char) : Bool :=
  c = ' ' ∨ c = '\t' ∨ c = '\n' ∨ c = '\r' ∨ c = '\x0b' ∨ c = '\x0c'

/-- Drop the longest suffix of characters satisfying `p` (right-side
`dropWhile`). -/
def rdropWhileL (p : Char → Bool) (cs : List Char) : List Char :=
  (cs.reverse.dropWhile p).reverse

/-- `str.strip()` on a character list. -/
def pyStripL (cs : List Char) : List Char :=
  rdropWhileL pyIsSpace (cs.dropWhile pyIsSpace)

/-- `str.strip()`. -/
def pyStrip (s : String) : String := ⟨pyStripL s.data⟩

/-- `str.rstrip()` (strip trailing whitespace). -/
def pyRstrip (s : String) : String := ⟨rdropWhileL pyIsSpace s.data⟩

/-- `line.rstrip("\n")` — strip only trailing newline characters. -/
def pyRstripNL (s : String) : String := ⟨rdropWhileL (· = '\n') s.data⟩

/-- `str.lower()` modelled by ASCII lowering. -/
def pyLower (s : String) : String := ⟨s.data.map Char.toLower⟩

/-- Substring containment, Python's `pat in s` for lists of characters. -/
def containsSub (pat : List Char) : List Char → Bool
  | [] => pat.isEmpty
  | c :: rest => pat.isPrefixOf (c :: rest) || containsSub pat rest

/-- Python `"\n".join(lines)` on a list of strings. -/
def joinNL : List String → String
  | [] => ""
  | [s] => s
  | s :: rest => s ++ "\n" ++ joinNL rest

/-- Helper for `splitNL`: accumulate the current line (reversed). -/
def splitNLAux : List Char → List Char → List (List Char)
  | [], acc => if acc.isEmpty then [] else [acc.reverse]
  | c :: rest, acc =>
      if c = '\n' then acc.reverse :: splitNLAux rest []
      else splitNLAux rest (c :: acc)

/-- `str.splitlines()` modelled for the `\n` terminator: split on `'\n'`,
with no trailing empty line when the text ends in a newline. -/
def splitNL (s : String) : List String :=
  (splitNLAux s.data []).map String.mk

/-- First-match-wins association lookup (Python dict access; keys of the
dicts built below are unique). -/
def lookupA {α : Type} : List (String × α) → String → Option α
  | [], _ => none
  | (k', v) :: rest, k => if k' = k then some v else lookupA rest k

/-- Python dict assignment `d[k] = v`: replace in place when the key exists,
else append (insertion order preserved). -/
def setOrd {α : Type} : List (String × α) → String → α → List (String × α)
  | [], k, v => [(k, v)]
  | (k', v') :: rest, k, v =>
      if k' = k then (k, v) :: rest else (k', v') :: setOrd rest k v

/-! ## Numeric-token extraction: `FLOAT_RE.findall` of `_parse_numbers` -/

/-- Lower-case ASCII letter test, the `[a-z]` class of `_sanitize_key`. -/
def isLowerAl (c : Char) : Bool := 'a' ≤ c ∧ c ≤ 'z'

/-- Digit test, the `\d` class (ASCII). -/
def isDigitC (c : Char) : Bool := '0' ≤ c ∧ c ≤ '9'

/-- The `[a-z0-9]` class of `_sanitize_key`. -/
def isAlnumL (c : Char) : Bool := isLowerAl c || isDigitC c

/-- Greedy match of the body `\d*\.?\d+` of `FLOAT_RE` at the start of `cs`,
with Python's backtracking semantics: prefer `digits '.' digits`, else a
plain digit run.  Returns the matched characters and the rest. -/
def floatBody (cs : List Char) : Option (List Char × List Char) :=
  let ds := cs.takeWhile isDigitC
  let r1 := cs.dropWhile isDigitC
  match r1 with
  | '.' :: r2 =>
      let frac := r2.takeWhile isDigitC
      if frac.isEmpty then
        -- `\d+` after the dot fails; backtracking drops the dot (and one
        -- digit of `\d*` becomes the `\d+`), so a nonempty digit run matches.
        if ds.isEmpty then none else some (ds, r1)
      else some (ds ++ '.' :: frac, r2.dropWhile isDigitC)
  | _ => if ds.isEmpty then none else some (ds, r1)

/-- Greedy match of the optional exponent `(?:[Ee][-+]?\d+)?` at `cs`. -/
def expPart (cs : List Char) : List Char × List Char :=
  match cs with
  | e :: r1 =>
      if e = 'e' ∨ e = 'E' then
        match r1 with
        | s :: r2 =>
            if s = '+' ∨ s = '-' then
              let ds := r2.takeWhile isDigitC
              if ds.isEmpty then ([], cs) else (e :: s :: ds, r2.dropWhile isDigitC)
            else
              let ds := r1.takeWhile isDigitC
              if ds.isEmpty then ([], cs) else (e :: ds, r1.dropWhile isDigitC)
        | [] => ([], cs)
      else ([], cs)
  | [] => ([], cs)

/-- Match `FLOAT_RE = [-+]?\d*\.?\d+(?:[Ee][-+]?\d+)?` at the start of `cs`.
Returns the matched token and the remaining characters. -/
def matchFloatAt (cs : List Char) : Option (List Char × List Char) :=
  match cs with
  | c :: rest =>
      if c = '-' ∨ c = '+' then
        -- if the body fails after the sign, backtracking retries without the
        -- sign at the same position, where the body fails on the sign char,
        -- so the overall match fails either way.
        match floatBody rest with
        | some (body, r) =>
            let (ex, r') := expPart r
            some (c :: body ++ ex, r')
        | none => none
      else
        match floatBody cs with
        | some (body, r) =>
            let (ex, r') := expPart r
            some (body ++ ex, r')
        | none => none
  | [] => none

theorem floatBody_spec (cs b r : List Char) (h : floatBody cs = some (b, r)) :
    0 < b.length ∧ b.length + r.length ≤ cs.length := by
  have hsplit : (cs.takeWhile isDigitC).length + (cs.dropWhile isDigitC).length
      = cs.length := by
    rw [← List.length_append, List.takeWhile_append_dropWhile]
  simp only [floatBody] at h
  split at h
  · rename_i r2 heq
    have hr2 : (r2.takeWhile isDigitC).length + (r2.dropWhile isDigitC).length
        = r2.length := by
      rw [← List.length_append, List.takeWhile_append_dropWhile]
    have hlen : (cs.dropWhile isDigitC).length = r2.length + 1 := by
      rw [heq]; simp
    split at h
    · split at h
      · exact absurd h (by simp)
      · rename_i hne
        simp only [Option.some.injEq, Prod.mk.injEq] at h
        obtain ⟨hb, hr⟩ := h
        have hpos : 0 < (cs.takeWhile isDigitC).length :=
          List.length_pos.mpr (by simpa using hne)
        subst hb; subst hr
        refine ⟨hpos, ?_⟩
        omega
    · simp only [Option.some.injEq, Prod.mk.injEq] at h
      obtain ⟨hb, hr⟩ := h
      subst hb; subst hr
      constructor
      · simp
      · simp only [List.length_append, List.length_cons]
        omega
  · rename_i heq
    split at h
    · exact absurd h (by simp)
    · rename_i hne
      simp only [Option.some.injEq, Prod.mk.injEq] at h
      obtain ⟨hb, hr⟩ := h
      have hpos : 0 < (cs.takeWhile isDigitC).length :=
        List.length_pos.mpr (by simpa using hne)
      subst hb; subst hr
      exact ⟨hpos, by omega⟩

theorem expPart_len (cs : List Char) : ((expPart cs).2).length ≤ cs.length := by
  simp only [expPart]
  split
  · rename_i e r1
    split
    · split
      · rename_i s r2
        split
        · split
          · simp
          · have : (r2.dropWhile isDigitC).length ≤ r2.length :=
              (List.dropWhile_sublist isDigitC).length_le
            simp only [List.length_cons]
            omega
        · split
          · simp
          · have : ((s :: r2).dropWhile isDigitC).length ≤ (s :: r2).length :=
              (List.dropWhile_sublist isDigitC).length_le
            simp only [List.length_cons] at this ⊢
            omega
      · simp
    · simp
  · simp

theorem matchFloatAt_shrink (cs t r : List Char) (h : matchFloatAt cs = some (t, r)) :
    r.length < cs.length := by
  simp only [matchFloatAt] at h
  split at h
  · rename_i c rest
    split at h
    · rcases hfb : floatBody rest with _ | ⟨b, r1⟩ <;> rw [hfb] at h
      · exact absurd h (by simp)
      · simp only [Option.some.injEq, Prod.mk.injEq] at h
        have hb := floatBody_spec rest b r1 hfb
        have he := expPart_len r1
        rcases hx : expPart r1 with ⟨ex, r2⟩
        rw [hx] at he h
        simp only at h he
        obtain ⟨h1, h2⟩ := h
        subst h2
        simp only [List.length_cons]
        omega
    · rcases hfb : floatBody (c :: rest) with _ | ⟨b, r1⟩ <;> rw [hfb] at h
      · exact absurd h (by simp)
      · simp only [Option.some.injEq, Prod.mk.injEq] at h
        have hb := floatBody_spec (c :: rest) b r1 hfb
        have he := expPart_len r1
        rcases hx : expPart r1 with ⟨ex, r2⟩
        rw [hx] at he h
        simp only at h he
        obtain ⟨h1, h2⟩ := h
        subst h2
        simp only [List.length_cons] at hb ⊢
        omega
  · exact absurd h (by simp)

/-- `re.findall` of `FLOAT_RE`, fuelled: scan left to right, at each
position try a match; on success emit the token and continue after it, else
advance one character.  The fuel only forces structural recursion; each step
consumes at least one character (`matchFloatAt_shrink`), so any fuel of at
least the input length computes the scan (`findFloatsFuel_congr`). -/
def findFloatsFuel : Nat → List Char → List (List Char)
  | 0, _ => []
  | _ + 1, [] => []
  | fuel + 1, c :: rest =>
      match matchFloatAt (c :: rest) with
      | some (t, r) => t :: findFloatsFuel fuel r
      | none => findFloatsFuel fuel rest

/-- The token scan of `FLOAT_RE.findall`. -/
def findFloats (cs : List Char) : List (List Char) :=
  findFloatsFuel cs.length cs

theorem findFloatsFuel_nil (f : Nat) : findFloatsFuel f [] = [] := by
  cases f <;> rfl

theorem findFloatsFuel_congr :
    ∀ f1 f2 cs, List.length cs ≤ f1 → List.length cs ≤ f2 →
      findFloatsFuel f1 cs = findFloatsFuel f2 cs := by
  intro f1
  induction f1 with
  | zero =>
      intro f2 cs h1 _
      have : cs = [] := List.length_eq_zero.mp (Nat.le_zero.mp h1)
      subst this
      rw [findFloatsFuel_nil, findFloatsFuel_nil]
  | succ f ih =>
      intro f2 cs h1 h2
      match cs with
      | [] => rw [findFloatsFuel_nil, findFloatsFuel_nil]
      | c :: rest =>
          cases f2 with
          | zero => simp at h2
          | succ g =>
              simp only [findFloatsFuel]
              simp only [List.length_cons] at h1 h2
              rcases hm : matchFloatAt (c :: rest) with _ | ⟨t, r⟩
              · exact ih g rest (by omega) (by omega)
              · have hlt := matchFloatAt_shrink _ _ _ hm
                simp only [List.length_cons] at hlt
                dsimp only
                rw [ih g r (by omega) (by omega)]

theorem findFloats_cons (c : Char) (rest : List Char) :
    findFloats (c :: rest) =
      match matchFloatAt (c :: rest) with
      | some (t, r) => t :: findFloats r
      | none => findFloats rest := by
  simp only [findFloats, List.length_cons, findFloatsFuel]
  rcases hm : matchFloatAt (c :: rest) with _ | ⟨t, r⟩
  · exact findFloatsFuel_congr _ _ _ (by omega) (le_refl _)
  · have hlt := matchFloatAt_shrink _ _ _ hm
    simp only [List.length_cons] at hlt
    dsimp only
    rw [findFloatsFuel_congr rest.length r.length r (by omega) (le_refl _)]

/-- `_parse_numbers`: replace `"D"` by `"E"` (Fortran exponents; upper-case
only, as in the source) and extract all `FLOAT_RE` tokens.  A token stands
for the Python float parsed from it. -/
def _parse_numbers (text : String) : List String :=
  (findFloats (text.data.map (fun c => if c = 'D' then 'E' else c))).map String.mk

/-! ## `_sanitize_key` -/

/-- `str.replace("(columns)", "columns")` for the fixed pattern of
`_sanitize_key`, fuelled for structural recursion: replace every occurrence,
scanning left to right; each step consumes at least one character, so any
fuel of at least the input length computes the replacement
(`replaceColumnsFuel_congr`). -/
def replaceColumnsFuel : Nat → List Char → List Char
  | 0, _ => []
  | _ + 1, [] => []
  | fuel + 1, c :: rest =>
      if "(columns)".data.isPrefixOf (c :: rest) then
        "columns".data ++ replaceColumnsFuel fuel (rest.drop 8)
      else c :: replaceColumnsFuel fuel rest

/-- `str.replace("(columns)", "columns")`. -/
def replaceColumns (cs : List Char) : List Char :=
  replaceColumnsFuel cs.length cs

theorem replaceColumnsFuel_nil (f : Nat) : replaceColumnsFuel f [] = [] := by
  cases f <;> rfl

theorem replaceColumnsFuel_congr :
    ∀ f1 f2 cs, List.length cs ≤ f1 → List.length cs ≤ f2 →
      replaceColumnsFuel f1 cs = replaceColumnsFuel f2 cs := by
  intro f1
  induction f1 with
  | zero =>
      intro f2 cs h1 _
      have : cs = [] := List.length_eq_zero.mp (Nat.le_zero.mp h1)
      subst this
      rw [replaceColumnsFuel_nil, replaceColumnsFuel_nil]
  | succ f ih =>
      intro f2 cs h1 h2
      match cs with
      | [] => rw [replaceColumnsFuel_nil, replaceColumnsFuel_nil]
      | c :: rest =>
          cases f2 with
          | zero => simp at h2
          | succ g =>
              simp only [replaceColumnsFuel]
              have hd : (rest.drop 8).length = rest.length - 8 := List.length_drop 8 rest
              simp only [List.length_cons] at h1 h2
              by_cases hp : "(columns)".data.isPrefixOf (c :: rest) = true
              · simp only [hp, if_true]
                rw [ih g (rest.drop 8) (by omega) (by omega)]
              · simp only [hp, if_false, Bool.false_eq_true]
                rw [ih g rest (by omega) (by omega)]

theorem replaceColumns_cons (c : Char) (rest : List Char) :
    replaceColumns (c :: rest) =
      if "(columns)".data.isPrefixOf (c :: rest) then
        "columns".data ++ replaceColumns (rest.drop 8)
      else c :: replaceColumns rest := by
  simp only [replaceColumns, List.length_cons, replaceColumnsFuel]
  have hd : (rest.drop 8).length = rest.length - 8 := List.length_drop 8 rest
  by_cases hp : "(columns)".data.isPrefixOf (c :: rest) = true
  · simp only [hp, if_true]
    rw [replaceColumnsFuel_congr rest.length (rest.drop 8).length (rest.drop 8)
      (by omega) (le_refl _)]
  · simp only [hp, if_false, Bool.false_eq_true]

/-- `re.sub(r"[^a-z0-9]+", "_", ·)`: each maximal run of characters outside
`[a-z0-9]` becomes a single underscore.  The flag records whether we are
inside such a run (the `_` for it is already emitted). -/
def subRunsAux : Bool → List Char → List Char
  | _, [] => []
  | inRun, c :: rest =>
      if isAlnumL c then c :: subRunsAux false rest
      else if inRun then subRunsAux true rest
      else '_' :: subRunsAux true rest

/-- `re.sub(r"_+", "_", ·)`: collapse repeated underscores.  The flag records
whether the previous emitted character was an underscore. -/
def collapseUAux : Bool → List Char → List Char
  | _, [] => []
  | prevU, c :: rest =>
      if c = '_' then
        if prevU then collapseUAux true rest
        else '_' :: collapseUAux true rest
      else c :: collapseUAux false rest

/-- `str.strip("_")`: drop leading and trailing underscores. -/
def stripUnders (cs : List Char) : List Char :=
  rdropWhileL (· = '_') (cs.dropWhile (· = '_'))

/-- `_sanitize_key`: lower-case, replace `"(columns)"` by `"columns"`,
collapse non-`[a-z0-9]` runs to `_`, collapse `_` runs, strip `_`, and fall
back to `"field"` when the result is empty (`cleaned or "field"`). -/
def _sanitize_key (text : String) : String :=
  let lowered := (text.data.map Char.toLower)
  let replaced := replaceColumns lowered
  let subbed := subRunsAux false replaced
  let collapsed := collapseUAux false subbed
  let stripped := stripUnders collapsed
  if stripped.isEmpty then "field" else ⟨stripped⟩

/-! ## Header and nucleus patterns -/

/-- Decimal digit list to the integer Python's `int()` produces. -/
def digitsToNat (ds : List Char) : Nat :=
  ds.foldl (fun acc c => acc * 10 + (c.toNat - '0'.toNat)) 0

/-- Match `header_re = CP\s+(\d+),\s+Type\s+\(([^)]+)\)` at the start of
`cs`; every quantified piece is matched greedily, which for this pattern
agrees with the backtracking semantics (each run is followed by a character
excluded from it).  Returns the two capture groups. -/
def headerMatchAt (cs : List Char) : Option (List Char × List Char) :=
  if "CP".data.isPrefixOf cs then
    let r1 := cs.drop 2
    let ws1 := r1.takeWhile pyIsSpace
    if ws1.isEmpty then none else
    let r2 := r1.dropWhile pyIsSpace
    let ds := r2.takeWhile isDigitC
    if ds.isEmpty then none else
    match r2.dropWhile isDigitC with
    | ',' :: r3 =>
        let ws2 := r3.takeWhile pyIsSpace
        if ws2.isEmpty then none else
        let r4 := r3.dropWhile pyIsSpace
        if "Type".data.isPrefixOf r4 then
          let r5 := r4.drop 4
          let ws3 := r5.takeWhile pyIsSpace
          if ws3.isEmpty then none else
          match r5.dropWhile pyIsSpace with
          | '(' :: r6 =>
              let lab := r6.takeWhile (· ≠ ')')
              if lab.isEmpty then none else
              match r6.dropWhile (· ≠ ')') with
              | ')' :: _ => some (ds, lab)
              | _ => none
          | _ => none
        else none
    | _ => none
  else none

/-- `header_re.search`: leftmost match anywhere in the string. -/
def headerSearchL : List Char → Option (List Char × List Char)
  | [] => none
  | c :: rest =>
      match headerMatchAt (c :: rest) with
      | some g => some g
      | none => headerSearchL rest

def headerSearch (s : String) : Option (List Char × List Char) :=
  headerSearchL s.data

/-- `nucleus_re.match` with

`Corresponding nucleus:\s*(\d+)\(([^)]+)\)`

anchored at the start of the string (`re.match`). -/
def nucleusMatch (s : String) : Option (Nat × String) :=
  let cs := s.data
  if "Corresponding nucleus:".data.isPrefixOf cs then
    let r1 := (cs.drop 22).dropWhile pyIsSpace
    let ds := r1.takeWhile isDigitC
    if ds.isEmpty then none else
    match r1.dropWhile isDigitC with
    | '(' :: r2 =>
        let lab := r2.takeWhile (· ≠ ')')
        if lab.isEmpty then none else
        match r2.dropWhile (· ≠ ')') with
        | ')' :: _ => some (digitsToNat ds, ⟨lab⟩)
        | _ => none
    | _ => none
  else none

/-- The guard of the header branch:
`stripped.startswith("----------------") and "CP" in stripped and "Type" in stripped`. -/
def pseudoHeader (stripped : String) : Bool :=
  "----------------".data.isPrefixOf stripped.data
    && containsSub "CP".data stripped.data
    && containsSub "Type".data stripped.data

/-! ## Data model -/

/-- An element of a Python list stored in a record field: either a float
(represented by its source token) from an inline vector, or a whole
token-list row appended by the anonymous `values` bucket. -/
inductive Elem where
  | num (t : String)
  | row (ts : List String)
deriving DecidableEq, Repr

/-- A value stored in a parsed record (the heterogeneous Python dict values
of `parse_cp_file`):
* `vint` — a Python `int` (header index, nucleus index);
* `vfloat` — a Python `float`, represented by the token it was parsed from;
* `vstr` — a Python `str`;
* `vlist` — a Python `list` (an inline vector of floats, or the `values`
  bucket of appended token-lists);
* `vmat` — a 2-D float `np.ndarray` from `_finalize_matrix`, kept as its
  rows of tokens;
* `vdict` — the `key_map` provenance dict. -/
inductive Value where
  | vint (n : Nat)
  | vfloat (t : String)
  | vstr (s : String)
  | vlist (xs : List Elem)
  | vmat (rows : List (List String))
  | vdict (m : List (String × String))
deriving DecidableEq, Repr

/-- Exceptions the embedded code can raise. -/
inductive PyErr where
  | attributeError
  | valueError
  | typeError
  | indexError
deriving DecidableEq, Repr

/-- A finalized record: the Python dict, insertion-ordered, keys unique. -/
abbrev Rec := List (String × Value)

/-- The per-record mutable context of `parse_cp_file` minus the raw lines:
the record dict under construction, `key_map`, `matrix_key`, `matrix_rows`. -/
structure Core where
  dict : Rec
  keyMap : List (String × String)
  matrixKey : Option String
  matrixRows : List (List String)
deriving DecidableEq, Repr

/-- The record under construction: its core plus `raw_lines`. -/
structure Builder where
  core : Core
  rawLines : List String
deriving DecidableEq, Repr

/-- The whole parser state: finalized records and the optional record under
construction. -/
structure PState where
  cps : List Rec
  cur : Option Builder
deriving DecidableEq, Repr

/-- Truthiness of the Python `matrix_key` variable (`None` and `""` are
falsy). -/
def truthyKey : Option String → Bool
  | none => false
  | some k => k ≠ ""

/-- All rows have the length of the first row
(`np.array(rows, dtype=float)` succeeds exactly on such rectangular data). -/
def regularRows : List (List String) → Bool
  | [] => true
  | r :: rs => rs.all (fun row => row.length = r.length)

/-- `_finalize_matrix`: when a (truthy) matrix key is pending and rows were
accumulated, write them as a float matrix under the sanitized key and record
provenance; always reset the pending state.  `np.array(matrix_rows,
dtype=float)` raises `ValueError` on ragged rows. -/
def _finalize_matrix (c : Core) : Except PyErr Core :=
  if truthyKey c.matrixKey ∧ c.matrixRows ≠ [] then
    match c.matrixKey with
    | some mk =>
        if regularRows c.matrixRows then
          .ok { dict := setOrd c.dict (_sanitize_key mk) (.vmat c.matrixRows),
                keyMap := setOrd c.keyMap (_sanitize_key mk) mk,
                matrixKey := none, matrixRows := [] }
        else .error .valueError
    | none => .ok { c with matrixKey := none, matrixRows := [] }
  else .ok { c with matrixKey := none, matrixRows := [] }

/-- Does the stripped line contain a colon? (Python `":" in stripped`.) -/
def hasColon (s : String) : Bool := s.data.contains ':'

/-- `stripped.split(":", 1)`: the part before the first colon and the part
after it. -/
def splitColon (s : String) : String × String :=
  (⟨s.data.takeWhile (· ≠ ':')⟩, ⟨(s.data.dropWhile (· ≠ ':')).drop 1⟩)

/-- Python `str.endswith` for a fixed suffix. -/
def endsWithS (s pat : String) : Bool := pat.data.isSuffixOf s.data

/-- Python `str.startswith` for a fixed prefix. -/
def startsWithS (s pat : String) : Bool := pat.data.isPrefixOf s.data

/-- One non-header line processed inside an open record (lines 113–157 of
`cp_parser.py`), acting on the core state; the argument is the stripped
line.  Every branch of the source reads only `stripped`, never the raw
line. -/
def classStep (c : Core) (stripped : String) : Except PyErr Core :=
  if stripped = "" then
    _finalize_matrix c
  else
    match nucleusMatch stripped with
    | some (n, lab) =>
        .ok { c with
          dict := setOrd (setOrd c.dict "corresponding_nucleus_index" (.vint n))
                    "corresponding_nucleus_label" (.vstr (pyStrip lab)),
          keyMap := setOrd (setOrd c.keyMap "corresponding_nucleus_index"
                    "Corresponding nucleus index")
                    "corresponding_nucleus_label" "Corresponding nucleus label" }
    | none =>
        if hasColon stripped then
          match _finalize_matrix c with
          | .error e => .error e
          | .ok c =>
              let parts := splitColon stripped
              let key := pyStrip parts.1
              let value := pyStrip parts.2
              let numbers := _parse_numbers value
              let sanitized := _sanitize_key key
              let c :=
                if endsWithS (pyLower key) "matrix"
                    || startsWithS (pyLower key) "eigenvectors" then
                  { c with
                    matrixKey := some key
                    matrixRows := []
                    keyMap := setOrd c.keyMap (_sanitize_key key) key }
                else c
              match numbers with
              | [] =>
                  if value ≠ "" then
                    .ok { c with
                          dict := setOrd c.dict sanitized (.vstr value)
                          keyMap := setOrd c.keyMap sanitized key }
                  else .ok c
              | [t] =>
                  .ok { c with
                        dict := setOrd c.dict sanitized (.vfloat t)
                        keyMap := setOrd c.keyMap sanitized key }
              | ts =>
                  .ok { c with
                        dict := setOrd c.dict sanitized (.vlist (ts.map .num))
                        keyMap := setOrd c.keyMap sanitized key }
        else
          let numbers := _parse_numbers stripped
          if numbers ≠ [] ∧ truthyKey c.matrixKey then
            .ok { c with matrixRows := c.matrixRows ++ [numbers] }
          else if numbers ≠ [] then
            let sanitized := _sanitize_key "values"
            match lookupA c.dict sanitized with
            | none =>
                .ok { c with
                      dict := setOrd c.dict sanitized (.vlist [.row numbers])
                      keyMap := setOrd c.keyMap sanitized "values" }
            | some (.vlist xs) =>
                .ok { c with
                      dict := setOrd c.dict sanitized (.vlist (xs ++ [.row numbers]))
                      keyMap := setOrd c.keyMap sanitized "values" }
            | some _ => .error .attributeError
          else .ok c

/-- `finalize_current` applied to the record under construction: flush any
pending matrix, store `raw_block` (the raw lines joined and stripped) and a
copy of `key_map`. -/
def finalizeBuilder (b : Builder) : Except PyErr Rec :=
  match _finalize_matrix b.core with
  | .error e => .error e
  | .ok c =>
      .ok (setOrd (setOrd c.dict "raw_block"
            (.vstr (pyStrip (joinNL b.rawLines)))) "key_map" (.vdict c.keyMap))

/-- `finalize_current` on the parser state: append the finalized record (if
a record is open) and reset the per-record context. -/
def finalizeStep (st : PState) : Except PyErr PState :=
  match st.cur with
  | none => .ok st
  | some b =>
      match finalizeBuilder b with
      | .error e => .error e
      | .ok r => .ok { cps := st.cps ++ [r], cur := none }

/-- One line of the main loop of `parse_cp_file`. -/
def stepLine (st : PState) (line : String) : Except PyErr PState :=
  let stripped := pyStrip line
  if pseudoHeader stripped then
    match finalizeStep st with
    | .error e => .error e
    | .ok st' =>
        match headerSearch stripped with
        | none => .ok st'
        | some (ds, lab) =>
            .ok { st' with cur := some {
              core := { dict := [("cp_index", .vint (digitsToNat ds)),
                                 ("cp_type", .vstr (pyStrip ⟨lab⟩))],
                        keyMap := [("cp_index", "CP index"), ("cp_type", "CP type")],
                        matrixKey := none, matrixRows := [] },
              rawLines := [stripped] } }
  else
    match st.cur with
    | none => .ok st
    | some b =>
        match classStep b.core stripped with
        | .error e => .error e
        | .ok c' =>
            .ok { st with cur := some ⟨c', b.rawLines ++ [pyRstripNL line]⟩ }

/-- Run the main loop over a list of lines. -/
def runLines : PState → List String → Except PyErr PState
  | st, [] => .ok st
  | st, l :: ls =>
      match stepLine st l with
      | .error e => .error e
      | .ok st' => runLines st' ls

/-- `parse_cp_file` over the already-split lines of the input text (reading
the file and `splitlines` happen at the boundary). -/
def parse_cp_lines (lines : List String) : Except PyErr (List Rec) :=
  match runLines ⟨[], none⟩ lines with
  | .error e => .error e
  | .ok st =>
      match finalizeStep st with
      | .error e => .error e
      | .ok st' => .ok st'.cps

/-- `parse_cp_file` on the whole text (`text.splitlines()` modelled by
`splitNL`). -/
def parse_cp_file (text : String) : Except PyErr (List Rec) :=
  parse_cp_lines (splitNL text)

/-! ## Aggregation: `_stack_values` and `aggregate_cp_records` -/

/-- Result of a per-key column after `_stack_values` / its fallbacks.  Each
constructor records which numpy representation was chosen, with the original
values boxed (their numeric content is a function of them):
* `intArray` — `np.array(values, dtype=int)`;
* `floatArray` — `np.array(values, dtype=float)`;
* `strArray` — `np.array(values, dtype=object)` of strings;
* `stacked` — `np.stack` of same-shaped float-converted tensors;
* `stackedRaw` — `np.stack(converted)` after a float conversion failed
  (dtype promoted per NumPy 1.x semantics, values kept unconverted);
* `objArray` — the opaque boxed per-record fallback
  `np.array(values, dtype=object)`;
* `keyMapArr` — the final `payload["key_map"]` object array. -/
inductive Agg where
  | intArray (vs : List Value)
  | floatArray (vs : List Value)
  | strArray (vs : List Value)
  | stacked (vs : List Value)
  | stackedRaw (vs : List Value)
  | objArray (vs : List Value)
  | keyMapArr (vs : List Value)
deriving DecidableEq, Repr

/-- `isinstance(v, (int, np.integer))`. -/
def isIntV : Value → Bool
  | .vint _ => true
  | _ => false

/-- `isinstance(v, (int, float, np.number))`. -/
def isNumV : Value → Bool
  | .vint _ => true
  | .vfloat _ => true
  | _ => false

/-- `isinstance(v, str)`. -/
def isStrV : Value → Bool
  | .vstr _ => true
  | _ => false

/-- The shape `np.asarray(v).shape`, or `none` when `np.asarray` raises on
inhomogeneous nested lists (NumPy ≥ 1.24 semantics).  Scalars, strings and
dicts give 0-D arrays; a list of floats gives a 1-D shape; a regular list
of rows or a stored matrix gives a 2-D shape. -/
def shapeV : Value → Option (List Nat)
  | .vint _ => some []
  | .vfloat _ => some []
  | .vstr _ => some []
  | .vdict _ => some []
  | .vmat rows =>
      match rows with
      | [] => some [0]
      | r :: rs => if rs.all (fun row => row.length = r.length)
          then some [rows.length, r.length] else none
  | .vlist xs =>
      match xs with
      | [] => some [0]
      | .num _ :: _ =>
          if xs.all (fun e => match e with | .num _ => true | _ => false)
          then some [xs.length] else none
      | .row r :: rest =>
          if rest.all (fun e => match e with
              | .row row => row.length = r.length | _ => false)
          then some [xs.length, r.length] else none

/-- Does the text parse as a Python float literal (`float(str)`)?  Modelled
for the decimal/exponent grammar; `inf`/`nan` words and digit underscores
are not modelled (no claim depends on them). -/
def pyFloatLit (s : String) : Bool :=
  let cs := pyStripL s.data
  let body := fun (ds : List Char) =>
    let ip := ds.takeWhile isDigitC
    match ds.dropWhile isDigitC with
    | [] => !ip.isEmpty
    | '.' :: r2 =>
        let fp := r2.takeWhile isDigitC
        (!ip.isEmpty || !fp.isEmpty) && (r2.dropWhile isDigitC).isEmpty
    | _ => false
  let splitExp := fun (ds : List Char) =>
    let m := ds.takeWhile (fun c => c ≠ 'e' && c ≠ 'E')
    let rest := ds.dropWhile (fun c => c ≠ 'e' && c ≠ 'E')
    match rest with
    | [] => body m
    | _ :: ex =>
        let ex2 := match ex with
          | c :: r => if c = '+' ∨ c = '-' then r else ex
          | [] => []
        body m && !ex2.isEmpty && ex2.all isDigitC
  match cs with
  | [] => false
  | c :: rest =>
      let ds := if c = '+' ∨ c = '-' then rest else cs
      splitExp ds

/-- Outcome of `np.asarray(v, dtype=float)` (inside the `try` of
`_stack_values`): succeeds on numeric data, raises `ValueError` on a
non-numeric string, `TypeError` on a dict. -/
def floatConv : Value → Option PyErr
  | .vstr s => if pyFloatLit s then none else some .valueError
  | .vdict _ => some .typeError
  | v => if (shapeV v).isSome then none else some .valueError

/-- `_stack_values` (lines 30–49): type-based dispatch to int/float/str
arrays, else shape analysis with a stacking attempt and the boxed-object
fallback; `values[0]` raises `IndexError` on an empty list (unreachable
from `aggregate_cp_records`). -/
def _stack_values (values : List Value) : Except PyErr Agg :=
  match values with
  | [] => .error .indexError
  | v0 :: _ =>
      if values.all isIntV then .ok (.intArray values)
      else if values.all isNumV then .ok (.floatArray values)
      else if values.all isStrV then .ok (.strArray values)
      else if values.any (fun v => (shapeV v).isNone) then
        -- np.asarray raised inside the conversion loop
        .error .valueError
      else if values.all (fun v => shapeV v = shapeV v0) then
        match values.findSome? floatConv with
        | none => .ok (.stacked values)
        | some .valueError =>
            -- caught by `except ValueError`; `np.stack(converted)`
            .ok (.stackedRaw values)
        | some e => .error e
      else .ok (.objArray values)

/-- `aggregated.setdefault(key, []).append(value)`: append to the key's
collected column, first-seen key order preserved. -/
def appendAt : List (String × List Value) → String → Value → List (String × List Value)
  | [], k, v => [(k, [v])]
  | (k', vs) :: rest, k, v =>
      if k' = k then (k', vs ++ [v]) :: rest else (k', vs) :: appendAt rest k v

/-- The `aggregated` accumulation loop of `aggregate_cp_records` (lines
168–173): collect every field of every record, skipping `key_map`. -/
def buildAgg (records : List Rec) : List (String × List Value) :=
  records.foldl
    (fun acc entry => entry.foldl
      (fun acc kv => if kv.1 = "key_map" then acc else appendAt acc kv.1 kv.2) acc)
    []

/-- `record.get("key_map", {})`. -/
def keyMapOf (r : Rec) : Value := (lookupA r "key_map").getD (.vdict [])

/-- `aggregate_cp_records`: empty input gives an empty aggregate; otherwise
each collected column is stacked with `_stack_values`, any exception falling
back to the boxed object array; `raw_block` always goes to an object array;
finally `payload["key_map"]` is the per-record provenance array. -/
def aggregate_cp_records (records : List Rec) : List (String × Agg) :=
  if records.isEmpty then []
  else
    let aggregated := buildAgg records
    let payload := aggregated.foldl
      (fun p kv =>
        if kv.1 = "raw_block" then setOrd p kv.1 (.objArray kv.2)
        else match _stack_values kv.2 with
          | .ok a => setOrd p kv.1 a
          | .error _ => setOrd p kv.1 (.objArray kv.2))
      []
    setOrd payload "key_map" (.keyMapArr (records.map keyMapOf))

/-! ## Decidability of `Except` results -/

instance exceptDecEq {ε α : Type} [DecidableEq ε] [DecidableEq α] :
    DecidableEq (Except ε α) := fun a b =>
  match a, b with
  | .error e, .error f =>
      if h : e = f then .isTrue (by rw [h])
      else .isFalse (fun hc => h (by injection hc))
  | .ok x, .ok y =>
      if h : x = y then .isTrue (by rw [h])
      else .isFalse (fun hc => h (by injection hc))
  | .error _, .ok _ => .isFalse (fun hc => Except.noConfusion hc)
  | .ok _, .error _ => .isFalse (fun hc => Except.noConfusion hc)

/-! ## Claim C8 -/

/-- C8: aggregating an empty record sequence returns the empty aggregate;
`aggregate_cp_records` is a total function of the record list, so the empty
result is an ordinary value, not an exception. -/
theorem C8_empty_aggregate : aggregate_cp_records [] = [] := rfl

/-! ## Claim C4 -/

/-- Input of the C4 counterexample: every record holds the float scalar
`2.0` (an integer-valued float) under key `q`. -/
def c4recs : List Rec := [[("q", .vfloat "2.0")], [("q", .vfloat "2.0")]]

/-- Is the optional column an integer array? -/
def isIntArrOpt : Option Agg → Bool
  | some (.intArray _) => true
  | _ => false

/-- C4 (counterexample): a key whose collected values are the integer-valued
float scalars `2.0` is aggregated as a float array, not an integer array —
the dispatch of `_stack_values` tests the Python runtime type
(`isinstance(v, (int, np.integer))`), not integrality of the value. -/
theorem C4_counterexample :
    lookupA (aggregate_cp_records c4recs) "q"
      = some (.floatArray [.vfloat "2.0", .vfloat "2.0"])
    ∧ isIntArrOpt (lookupA (aggregate_cp_records c4recs) "q") = false := by
  constructor
  · rfl
  · rfl

/-- C4 (amended): the integer-array case of `_stack_values` applies exactly
when every collected value is a Python `int`/`np.integer` by runtime type,
and is tested before the float case; numeric columns containing a value of
float type — integer-valued or not — fall through to the float array. -/
theorem C4_int_type_dispatch (vs : List Value) (hne : vs ≠ []) :
    (vs.all isIntV = true → _stack_values vs = .ok (.intArray vs))
    ∧ (vs.all isNumV = true → vs.all isIntV = false →
        _stack_values vs = .ok (.floatArray vs)) := by
  match vs, hne with
  | v :: rest, _ =>
    constructor
    · intro h
      simp only [_stack_values, h]
      rfl
    · intro h1 h2
      simp only [_stack_values, h1, h2]
      rfl

/-- Witness for C4: both branches of the dispatch at concrete inputs. -/
theorem C4_witness :
    _stack_values [Value.vint 2] = .ok (.intArray [Value.vint 2])
    ∧ _stack_values [Value.vfloat "2.0"] = .ok (.floatArray [Value.vfloat "2.0"]) :=
  ⟨(C4_int_type_dispatch [Value.vint 2] (by decide)).1 (by decide),
   (C4_int_type_dispatch [Value.vfloat "2.0"] (by decide)).2 (by decide) (by decide)⟩

/-! ## Claim C1 -/

/-- A record body with a malformed pseudo-header inside. -/
def c1linesWith : List String :=
  ["----------------   CP 1,     Type (3,-3)", "A: 1.0",
   "---------------- CP Type ----", "B: 2.0"]

/-- The same input without the malformed pseudo-header line. -/
def c1linesWithout : List String :=
  ["----------------   CP 1,     Type (3,-3)", "A: 1.0", "B: 2.0"]

/-- C1 (counterexample): a divider line that superficially resembles a
header but fails the index/type capture does change the parse — it
finalizes the record under construction, so the later field line `B: 2.0`
is dropped and the record sequences differ. -/
theorem C1_counterexample :
    parse_cp_lines c1linesWith ≠ parse_cp_lines c1linesWithout
    ∧ (parse_cp_lines c1linesWith).map (List.map (fun r => lookupA r "b"))
        = .ok [none]
    ∧ (parse_cp_lines c1linesWithout).map (List.map (fun r => lookupA r "b"))
        = .ok [some (.vfloat "2.0")] := by
  refine ⟨by decide, by decide, by decide⟩

/-- C1 (amended): a line that passes the superficial header guard but fails
the header-pattern capture is skipped without creating a record, but it
first runs `finalize_current()` — the step on such a line is exactly the
finalization step, so a record under construction is finalized early. -/
theorem C1_malformed_header_finalizes (st : PState) (line : String)
    (h1 : pseudoHeader (pyStrip line) = true)
    (h2 : headerSearch (pyStrip line) = none) :
    stepLine st line = finalizeStep st := by
  simp only [stepLine, h1, if_pos, h2]
  cases finalizeStep st <;> rfl

/-- Witness for C1: the malformed divider applied to a state with an open
record finalizes it. -/
theorem C1_witness :
    stepLine ⟨[], some ⟨⟨[("cp_index", .vint 1)], [], none, []⟩, ["x"]⟩⟩
        "---------------- CP Type ----"
      = finalizeStep ⟨[], some ⟨⟨[("cp_index", .vint 1)], [], none, []⟩, ["x"]⟩⟩ :=
  C1_malformed_header_finalizes _ _ (by decide) (by decide)

/-! ## Claim C2 -/

/-- A core with a pending matrix: key `Aa matrix`, one accumulated row. -/
def c2core : Core :=
  { dict := [("cp_index", .vint 1)],
    keyMap := [("cp_index", "CP index"), ("aa_matrix", "Aa matrix")],
    matrixKey := some "Aa matrix",
    matrixRows := [["1.0", "2.0"]] }

/-- The state `classStep` actually produces on the nucleus line. -/
def c2actual : Core :=
  { dict := [("cp_index", .vint 1),
             ("corresponding_nucleus_index", .vint 5),
             ("corresponding_nucleus_label", .vstr "C")],
    keyMap := [("cp_index", "CP index"), ("aa_matrix", "Aa matrix"),
               ("corresponding_nucleus_index", "Corresponding nucleus index"),
               ("corresponding_nucleus_label", "Corresponding nucleus label")],
    matrixKey := some "Aa matrix",
    matrixRows := [["1.0", "2.0"]] }

/-- C2 (counterexample): processing a nucleus-reference line with a pending
matrix and an accumulated row does not flush the matrix: no `aa_matrix`
field is written and the pending key and rows survive, contradicting the
claimed blank-line-style flush. -/
theorem C2_counterexample :
    classStep c2core "Corresponding nucleus: 5(C)" = .ok c2actual
    ∧ lookupA c2actual.dict "aa_matrix" = none
    ∧ c2actual.matrixRows = [["1.0", "2.0"]]
    ∧ c2actual.matrixKey = some "Aa matrix" := by
  refine ⟨by decide, rfl, rfl, rfl⟩

/-- C2 (amended): a line matching the nucleus-reference pattern writes the
two nucleus scalar fields and their fixed provenance labels, leaving the
pending-matrix state (key and accumulated rows) untouched: the nucleus
branch returns before the colon branch in which the flush happens. -/
theorem C2_nucleus_preserves_pending (c : Core) (s : String) (n : Nat) (lab : String)
    (h : nucleusMatch s = some (n, lab)) :
    classStep c s = .ok { c with
      dict := setOrd (setOrd c.dict "corresponding_nucleus_index" (.vint n))
                "corresponding_nucleus_label" (.vstr (pyStrip lab)),
      keyMap := setOrd (setOrd c.keyMap "corresponding_nucleus_index"
                "Corresponding nucleus index")
                "corresponding_nucleus_label" "Corresponding nucleus label" } := by
  have hne : s ≠ "" := by
    intro he
    rw [he, show nucleusMatch "" = none from rfl] at h
    exact Option.noConfusion h
  simp only [classStep, if_neg hne, h]

/-- Witness for C2: the nucleus line applied to the concrete pending state. -/
theorem C2_witness :
    classStep c2core "Corresponding nucleus: 5(C)" = .ok { c2core with
      dict := setOrd (setOrd c2core.dict "corresponding_nucleus_index" (.vint 5))
                "corresponding_nucleus_label" (.vstr (pyStrip "C")),
      keyMap := setOrd (setOrd c2core.keyMap "corresponding_nucleus_index"
                "Corresponding nucleus index")
                "corresponding_nucleus_label" "Corresponding nucleus label" } :=
  C2_nucleus_preserves_pending c2core "Corresponding nucleus: 5(C)" 5 "C" (by decide)

/-! ## Claim C10 -/

/-- C10: flushing a pending matrix with zero accumulated rows writes no
matrix field: `_finalize_matrix` only clears the pending state (dict and
provenance map untouched), a blank line does exactly that, and record
finalization then adds only the `raw_block` and `key_map` entries on top of
the unchanged fields. -/
theorem C10_empty_flush_noop (c : Core) (rl : List String)
    (h : c.matrixRows = []) :
    _finalize_matrix c = .ok { c with matrixKey := none, matrixRows := [] }
    ∧ classStep c "" = .ok { c with matrixKey := none, matrixRows := [] }
    ∧ finalizeBuilder ⟨c, rl⟩
        = .ok (setOrd (setOrd c.dict "raw_block" (.vstr (pyStrip (joinNL rl))))
               "key_map" (.vdict c.keyMap)) := by
  have h1 : _finalize_matrix c = .ok { c with matrixKey := none, matrixRows := [] } := by
    simp only [_finalize_matrix, h]
    simp
  refine ⟨h1, ?_, ?_⟩
  · simp only [classStep, h1]
    rw [if_pos trivial]
  · simp only [finalizeBuilder, h1]

/-- Witness for C10: a pending `Hessian matrix` key without accumulated
rows, as left by a matrix-label line whose provenance was already recorded;
the flush and the finalization write no `hessian_matrix` field. -/
theorem C10_witness :
    _finalize_matrix
        ⟨[("cp_index", .vint 1)], [("cp_index", "CP index"),
          ("hessian_matrix", "Hessian matrix")], some "Hessian matrix", []⟩
      = .ok ⟨[("cp_index", .vint 1)], [("cp_index", "CP index"),
          ("hessian_matrix", "Hessian matrix")], none, []⟩
    ∧ finalizeBuilder ⟨⟨[("cp_index", .vint 1)], [("cp_index", "CP index"),
          ("hessian_matrix", "Hessian matrix")], some "Hessian matrix", []⟩, ["x"]⟩
      = .ok [("cp_index", .vint 1), ("raw_block", .vstr "x"),
             ("key_map", .vdict [("cp_index", "CP index"),
               ("hessian_matrix", "Hessian matrix")])] := by
  have := C10_empty_flush_noop
    ⟨[("cp_index", .vint 1)], [("cp_index", "CP index"),
      ("hessian_matrix", "Hessian matrix")], some "Hessian matrix", []⟩ ["x"] rfl
  exact ⟨this.1, by rw [this.2.2]; rfl⟩

/-! ## Claim C5: the sanitizer is pure, idempotent and never empty -/

/-- Characters that can appear in a sanitized key. -/
def canonChar (c : Char) : Bool := isAlnumL c || c = '_'

/-- No two adjacent underscores. -/
def NoDub (cs : List Char) : Prop :=
  List.Chain' (fun a b => ¬(a = '_' ∧ b = '_')) cs

theorem char_le_iff_toNat (a b : Char) : (a ≤ b) ↔ a.toNat ≤ b.toNat := by
  rw [Char.le_def, UInt32.le_def, BitVec.le_def]
  rfl

theorem isAlnumL_ne_under (c : Char) (h : isAlnumL c = true) : c ≠ '_' := by
  intro he
  subst he
  exact absurd h (by decide)

theorem toLower_fix (c : Char) (h : canonChar c = true) : c.toLower = c := by
  have hrange : ¬(c.toNat ≥ 65 ∧ c.toNat ≤ 90) := by
    simp only [canonChar, isAlnumL, isLowerAl, isDigitC, Bool.or_eq_true,
      Bool.and_eq_true, decide_eq_true_eq] at h
    rcases h with (⟨h1, h2⟩ | ⟨h1, h2⟩) | h1
    · rw [char_le_iff_toNat] at h1 h2
      simp only [show ('a' : Char).toNat = 97 from rfl,
        show ('z' : Char).toNat = 122 from rfl] at h1 h2
      omega
    · rw [char_le_iff_toNat] at h1 h2
      simp only [show ('0' : Char).toNat = 48 from rfl,
        show ('9' : Char).toNat = 57 from rfl] at h1 h2
      omega
    · subst h1
      decide
  simp [Char.toLower, hrange]

theorem map_toLower_fix (cs : List Char) (h : ∀ c ∈ cs, canonChar c = true) :
    cs.map Char.toLower = cs := by
  induction cs with
  | nil => rfl
  | cons c rest ih =>
      simp only [List.map_cons]
      rw [toLower_fix c (h c (by simp)), ih (fun x hx => h x (by simp [hx]))]

theorem replaceColumns_id (cs : List Char) (h : ∀ c ∈ cs, c ≠ '(') :
    replaceColumns cs = cs := by
  induction cs with
  | nil => rfl
  | cons c rest ih =>
      rw [replaceColumns_cons]
      have hp : "(columns)".data.isPrefixOf (c :: rest) = false := by
        have hc : c ≠ '(' := h c (by simp)
        simp only [show "(columns)".data = '(' :: "columns)".data from rfl,
          List.isPrefixOf_cons₂]
        simp [beq_eq_false_iff_ne, Ne.symm hc]
      rw [hp]
      simp only [Bool.false_eq_true, if_false]
      rw [ih (fun x hx => h x (by simp [hx]))]

theorem subRuns_canon (b : Bool) (cs : List Char) :
    ∀ c ∈ subRunsAux b cs, canonChar c = true := by
  induction cs generalizing b with
  | nil => simp [subRunsAux]
  | cons c rest ih =>
      intro x hx
      simp only [subRunsAux] at hx
      by_cases hc : isAlnumL c = true
      · rw [if_pos hc] at hx
        rcases List.mem_cons.mp hx with h | h
        · subst h
          simp [canonChar, hc]
        · exact ih false x h
      · rw [if_neg hc] at hx
        cases b with
        | true =>
            rw [if_pos rfl] at hx
            exact ih true x hx
        | false =>
            simp only [Bool.false_eq_true, if_false] at hx
            rcases List.mem_cons.mp hx with h | h
            · subst h
              decide
            · exact ih true x h

theorem subRuns_true_head (cs : List Char) :
    ∀ h, (subRunsAux true cs).head? = some h → isAlnumL h = true := by
  induction cs with
  | nil => simp [subRunsAux]
  | cons c rest ih =>
      intro h hh
      simp only [subRunsAux] at hh
      by_cases hc : isAlnumL c = true
      · rw [if_pos hc] at hh
        simp only [List.head?_cons, Option.some.injEq] at hh
        subst hh
        exact hc
      · simp only [if_neg hc, if_true] at hh
        exact ih h hh

theorem subRuns_noDub (b : Bool) (cs : List Char) : NoDub (subRunsAux b cs) := by
  induction cs generalizing b with
  | nil => exact List.chain'_nil
  | cons c rest ih =>
      simp only [subRunsAux]
      by_cases hc : isAlnumL c = true
      · rw [if_pos hc]
        rw [NoDub, List.chain'_cons']
        refine ⟨fun y _ => ?_, ih false⟩
        intro ⟨h1, _⟩
        exact isAlnumL_ne_under c hc h1
      · rw [if_neg hc]
        cases b with
        | true =>
            simp only [if_true]
            exact ih true
        | false =>
            simp only [Bool.false_eq_true, if_false]
            rw [NoDub, List.chain'_cons']
            refine ⟨fun y hy => ?_, ih true⟩
            intro ⟨_, h2⟩
            exact isAlnumL_ne_under y (subRuns_true_head rest y hy) h2

theorem subRuns_id (cs : List Char) (hc : ∀ c ∈ cs, canonChar c = true)
    (hd : NoDub cs) :
    subRunsAux false cs = cs
    ∧ (cs.head? ≠ some '_' → subRunsAux true cs = cs) := by
  induction cs with
  | nil => exact ⟨rfl, fun _ => rfl⟩
  | cons c rest ih =>
      have htail := ih (fun x hx => hc x (by simp [hx])) (List.Chain'.tail hd)
      by_cases ha : isAlnumL c = true
      · constructor
        · simp only [subRunsAux, if_pos ha]
          rw [htail.1]
        · intro _
          simp only [subRunsAux, if_pos ha]
          rw [htail.1]
      · have hcc := hc c (by simp)
        have hu : c = '_' := by
          simp only [canonChar, Bool.or_eq_true] at hcc
          rcases hcc with h | h
          · exact absurd h ha
          · simpa using h
        subst hu
        constructor
        · simp only [subRunsAux, if_neg ha, Bool.false_eq_true, if_false]
          have hh : rest.head? ≠ some '_' := by
            intro hhead
            rw [NoDub, List.chain'_cons'] at hd
            exact hd.1 '_' hhead ⟨rfl, rfl⟩
          rw [htail.2 hh]
        · intro hne
          exact absurd rfl hne

theorem collapse_id (cs : List Char) (hd : NoDub cs) :
    collapseUAux false cs = cs
    ∧ (cs.head? ≠ some '_' → collapseUAux true cs = cs) := by
  induction cs with
  | nil => exact ⟨rfl, fun _ => rfl⟩
  | cons c rest ih =>
      have htail := ih (List.Chain'.tail hd)
      by_cases hu : c = '_'
      · subst hu
        have hh : rest.head? ≠ some '_' := by
          intro hhead
          rw [NoDub, List.chain'_cons'] at hd
          exact hd.1 '_' hhead ⟨rfl, rfl⟩
        constructor
        · simp only [collapseUAux, if_true, if_false, Bool.false_eq_true]
          rw [htail.2 hh]
        · intro hne
          exact absurd rfl hne
      · constructor
        · simp only [collapseUAux, if_neg hu]
          rw [htail.1]
        · intro _
          simp only [collapseUAux, if_neg hu]
          rw [htail.1]

theorem head_dropWhile (p : Char → Bool) (cs : List Char) :
    ∀ h, (cs.dropWhile p).head? = some h → p h = false := by
  induction cs with
  | nil => simp
  | cons c rest ih =>
      intro h hh
      rw [List.dropWhile_cons] at hh
      by_cases hp : p c = true
      · rw [if_pos hp] at hh
        exact ih h hh
      · rw [if_neg hp] at hh
        simp only [List.head?_cons, Option.some.injEq] at hh
        subst hh
        exact eq_false_of_ne_true hp

theorem stripUnders_isPre (cs : List Char) :
    stripUnders cs <+: cs.dropWhile (· = '_') := by
  rw [show stripUnders cs
      = ((cs.dropWhile (· = '_')).reverse.dropWhile (· = '_')).reverse from rfl]
  rw [← List.reverse_suffix, List.reverse_reverse]
  exact List.dropWhile_suffix _

theorem stripUnders_mem (cs : List Char) (x : Char) (h : x ∈ stripUnders cs) :
    x ∈ cs := by
  simp only [stripUnders, rdropWhileL] at h
  rw [List.mem_reverse] at h
  have h2 := (List.dropWhile_suffix (l := (cs.dropWhile (· = '_')).reverse)
    (· = '_')).subset h
  rw [List.mem_reverse] at h2
  exact (List.dropWhile_suffix (· = '_')).subset h2

theorem stripUnders_noDub (cs : List Char) (h : NoDub cs) :
    NoDub (stripUnders cs) := by
  have h1 : NoDub (cs.dropWhile (· = '_')) :=
    List.Chain'.suffix h (List.dropWhile_suffix _)
  exact List.Chain'.prefix h1 (stripUnders_isPre cs)

theorem stripUnders_head (cs : List Char) :
    ∀ h, (stripUnders cs).head? = some h → h ≠ '_' := by
  intro h hh
  have hpre := stripUnders_isPre cs
  obtain ⟨t, ht⟩ := hpre
  have hne : stripUnders cs ≠ [] := by
    intro he
    rw [he] at hh
    exact Option.noConfusion hh
  have : (cs.dropWhile (· = '_')).head? = some h := by
    rw [← ht, List.head?_append_of_ne_nil _ hne, hh]
  have := head_dropWhile (· = '_') cs h this
  simpa using this

theorem stripUnders_last (cs : List Char) :
    ∀ h, (stripUnders cs).getLast? = some h → h ≠ '_' := by
  intro h hh
  have hrev : (stripUnders cs).reverse
      = (cs.dropWhile (· = '_')).reverse.dropWhile (· = '_') := by
    rw [show stripUnders cs
        = ((cs.dropWhile (· = '_')).reverse.dropWhile (· = '_')).reverse from rfl]
    rw [List.reverse_reverse]
  have hh2 : ((cs.dropWhile (· = '_')).reverse.dropWhile (· = '_')).head? = some h := by
    rw [← hrev, List.head?_reverse, hh]
  have := head_dropWhile (· = '_') (cs.dropWhile (· = '_')).reverse h hh2
  simpa using this

theorem dropWhile_id_of_head (p : Char → Bool) (cs : List Char)
    (h : ∀ x, cs.head? = some x → p x = false) :
    cs.dropWhile p = cs := by
  cases cs with
  | nil => rfl
  | cons c rest =>
      rw [List.dropWhile_cons, if_neg]
      rw [h c rfl]
      simp

theorem stripUnders_id (cs : List Char)
    (h1 : ∀ x, cs.head? = some x → x ≠ '_')
    (h2 : ∀ x, cs.getLast? = some x → x ≠ '_') :
    stripUnders cs = cs := by
  have hd : cs.dropWhile (· = '_') = cs := by
    apply dropWhile_id_of_head
    intro x hx
    simp [h1 x hx]
  rw [show stripUnders cs
      = ((cs.dropWhile (· = '_')).reverse.dropWhile (· = '_')).reverse from rfl, hd]
  have hr : cs.reverse.dropWhile (· = '_') = cs.reverse := by
    apply dropWhile_id_of_head
    intro x hx
    rw [List.head?_reverse] at hx
    simp [h2 x hx]
  rw [hr, List.reverse_reverse]

/-- C5: the key sanitizer is pure (it is a function of its argument alone),
idempotent, and never returns the empty string (the literal `"field"` is
substituted when normalization empties the label). -/
theorem C5_sanitize_pure_idempotent (x : String) :
    _sanitize_key (_sanitize_key x) = _sanitize_key x ∧ _sanitize_key x ≠ "" := by
  have hnd : NoDub (subRunsAux false (replaceColumns (x.data.map Char.toLower))) :=
    subRuns_noDub _ _
  have hcanon : ∀ c ∈ subRunsAux false (replaceColumns (x.data.map Char.toLower)),
      canonChar c = true := subRuns_canon _ _
  have hcol : collapseUAux false (subRunsAux false (replaceColumns
      (x.data.map Char.toLower)))
      = subRunsAux false (replaceColumns (x.data.map Char.toLower)) :=
    (collapse_id _ hnd).1
  have hsan : _sanitize_key x =
      if (stripUnders (subRunsAux false (replaceColumns
        (x.data.map Char.toLower)))).isEmpty then "field"
      else ⟨stripUnders (subRunsAux false (replaceColumns
        (x.data.map Char.toLower)))⟩ := by
    simp only [_sanitize_key]
    rw [hcol]
  by_cases he : (stripUnders (subRunsAux false (replaceColumns
      (x.data.map Char.toLower)))).isEmpty = true
  · rw [hsan, if_pos he]
    exact ⟨rfl, by decide⟩
  · rw [hsan, if_neg he]
    have hcanonS : ∀ c ∈ stripUnders (subRunsAux false (replaceColumns
        (x.data.map Char.toLower))), canonChar c = true :=
      fun c hc => hcanon c (stripUnders_mem _ c hc)
    have hndS : NoDub (stripUnders (subRunsAux false (replaceColumns
        (x.data.map Char.toLower)))) := stripUnders_noDub _ hnd
    constructor
    · simp only [_sanitize_key]
      rw [map_toLower_fix _ hcanonS]
      rw [replaceColumns_id _ (by
        intro c hc hpar
        subst hpar
        exact absurd (hcanonS '(' hc) (by decide))]
      rw [(subRuns_id _ hcanonS hndS).1]
      rw [(collapse_id _ hndS).1]
      rw [stripUnders_id _ (stripUnders_head _) (stripUnders_last _)]
      rw [if_neg he]
    · intro hemp
      have : stripUnders (subRunsAux false (replaceColumns
          (x.data.map Char.toLower))) = [] := by
        have := congrArg String.data hemp
        simpa using this
      rw [this] at he
      exact he rfl

/-! ## Association-list lemmas for the aggregator -/

theorem lookupA_setOrd_self {α : Type} (d : List (String × α)) (k : String) (v : α) :
    lookupA (setOrd d k v) k = some v := by
  induction d with
  | nil => simp [setOrd, lookupA]
  | cons kv rest ih =>
      rcases kv with ⟨k1, v1⟩
      simp only [setOrd]
      by_cases h : k1 = k
      · rw [if_pos h]
        simp [lookupA]
      · rw [if_neg h]
        simp only [lookupA, if_neg h]
        exact ih

theorem lookupA_setOrd_ne {α : Type} (d : List (String × α)) (k k' : String) (v : α)
    (h : k' ≠ k) :
    lookupA (setOrd d k v) k' = lookupA d k' := by
  induction d with
  | nil => simp [setOrd, lookupA, Ne.symm h]
  | cons kv rest ih =>
      rcases kv with ⟨k1, v1⟩
      simp only [setOrd]
      by_cases h1 : k1 = k
      · rw [if_pos h1]
        subst h1
        simp only [lookupA, if_neg (Ne.symm h)]
      · rw [if_neg h1]
        simp only [lookupA]
        by_cases h2 : k1 = k'
        · rw [if_pos h2, if_pos h2]
        · rw [if_neg h2, if_neg h2]
          exact ih

theorem lookupA_eq_none_iff {α : Type} (d : List (String × α)) (k : String) :
    lookupA d k = none ↔ k ∉ d.map Prod.fst := by
  induction d with
  | nil => simp [lookupA]
  | cons kv rest ih =>
      rcases kv with ⟨k1, v1⟩
      simp only [lookupA, List.map_cons, List.mem_cons]
      by_cases h : k1 = k
      · rw [if_pos h]
        simp [h]
      · rw [if_neg h]
        rw [ih]
        constructor
        · intro hk hc
          rcases hc with hc | hc
          · exact h hc.symm
          · exact hk hc
        · intro hk hc
          exact hk (Or.inr hc)

theorem lookupA_appendAt_self (acc : List (String × List Value)) (k : String) (v : Value) :
    lookupA (appendAt acc k v) k = some ((lookupA acc k).getD [] ++ [v]) := by
  induction acc with
  | nil => simp [appendAt, lookupA]
  | cons kv rest ih =>
      rcases kv with ⟨k1, vs1⟩
      simp only [appendAt]
      by_cases h : k1 = k
      · rw [if_pos h]
        simp [lookupA, h]
      · rw [if_neg h]
        simp only [lookupA, if_neg h]
        exact ih

theorem lookupA_appendAt_ne (acc : List (String × List Value)) (k k' : String) (v : Value)
    (h : k' ≠ k) :
    lookupA (appendAt acc k v) k' = lookupA acc k' := by
  induction acc with
  | nil => simp [appendAt, lookupA, Ne.symm h]
  | cons kv rest ih =>
      rcases kv with ⟨k1, vs1⟩
      simp only [appendAt]
      by_cases h1 : k1 = k
      · rw [if_pos h1]
        subst h1
        simp only [lookupA, if_neg (Ne.symm h)]
      · rw [if_neg h1]
        simp only [lookupA]
        by_cases h2 : k1 = k'
        · rw [if_pos h2, if_pos h2]
        · rw [if_neg h2, if_neg h2]
          exact ih

theorem mem_keys_appendAt (acc : List (String × List Value)) (k : String) (v : Value)
    (x : String) (h : x ∈ (appendAt acc k v).map Prod.fst) :
    x ∈ acc.map Prod.fst ∨ x = k := by
  induction acc with
  | nil => simpa [appendAt] using h
  | cons kv rest ih =>
      rcases kv with ⟨k1, vs1⟩
      simp only [appendAt] at h
      by_cases h1 : k1 = k
      · rw [if_pos h1] at h
        simp only [List.map_cons, List.mem_cons] at h ⊢
        exact Or.inl h
      · rw [if_neg h1] at h
        simp only [List.map_cons, List.mem_cons] at h ⊢
        rcases h with h | h
        · exact Or.inl (Or.inl h)
        · rcases ih h with h2 | h2
          · exact Or.inl (Or.inr h2)
          · exact Or.inr h2

theorem nodup_keys_appendAt (acc : List (String × List Value)) (k : String) (v : Value)
    (h : (acc.map Prod.fst).Nodup) :
    ((appendAt acc k v).map Prod.fst).Nodup := by
  induction acc with
  | nil => simp [appendAt]
  | cons kv rest ih =>
      rcases kv with ⟨k1, vs1⟩
      simp only [List.map_cons, List.nodup_cons] at h
      simp only [appendAt]
      by_cases h1 : k1 = k
      · rw [if_pos h1]
        simp only [List.map_cons, List.nodup_cons]
        exact h
      · rw [if_neg h1]
        simp only [List.map_cons, List.nodup_cons]
        refine ⟨?_, ih h.2⟩
        intro hc
        rcases mem_keys_appendAt rest k v k1 hc with h2 | h2
        · exact h.1 h2
        · exact h1 h2

/-- The per-key column `aggregate_cp_records` collects: the value under `k`
of every record that defines `k`, in record order. -/
def collectKey (records : List Rec) (k : String) : List Value :=
  records.filterMap (fun r => lookupA r k)

theorem entryFold_lookup (entry : Rec) (acc : List (String × List Value)) (k : String)
    (hnd : (entry.map Prod.fst).Nodup) :
    lookupA (entry.foldl
      (fun acc kv => if kv.1 = "key_map" then acc else appendAt acc kv.1 kv.2) acc) k
    = if k = "key_map" then lookupA acc k
      else match lookupA entry k with
        | some v => some ((lookupA acc k).getD [] ++ [v])
        | none => lookupA acc k := by
  induction entry generalizing acc with
  | nil =>
      simp only [List.foldl_nil, lookupA]
      rcases h : lookupA acc k with _ | v <;> simp [ite_self]
  | cons kv rest ih =>
      rcases kv with ⟨k1, v1⟩
      simp only [List.map_cons, List.nodup_cons] at hnd
      simp only [List.foldl_cons]
      by_cases h1 : k1 = "key_map"
      · rw [if_pos h1]
        rw [ih acc hnd.2]
        by_cases hk : k = "key_map"
        · rw [if_pos hk, if_pos hk]
        · rw [if_neg hk, if_neg hk]
          have hk1 : ¬(k1 = k) := by
            intro hc
            exact hk (hc ▸ h1)
          simp only [lookupA, if_neg hk1]
      · rw [if_neg h1]
        rw [ih _ hnd.2]
        by_cases hk : k = "key_map"
        · rw [if_pos hk, if_pos hk]
          exact lookupA_appendAt_ne acc k1 k v1 (fun hc => h1 (hk ▸ hc.symm))
        · rw [if_neg hk, if_neg hk]
          by_cases h2 : k1 = k
          · subst h2
            have hrest : lookupA rest k1 = none :=
              (lookupA_eq_none_iff rest k1).mpr hnd.1
            rw [hrest]
            simp only [lookupA, if_pos rfl]
            exact lookupA_appendAt_self acc k1 v1
          · simp only [lookupA, if_neg h2]
            have happ := lookupA_appendAt_ne acc k1 k v1 (fun hc => h2 hc.symm)
            rcases hr : lookupA rest k with _ | v
            · exact happ
            · rw [happ]

theorem recordsFold_lookup (records : List Rec) (k : String) :
    ∀ acc : List (String × List Value),
    (∀ r ∈ records, (r.map Prod.fst).Nodup) →
    lookupA (records.foldl
      (fun acc entry => entry.foldl
        (fun acc kv => if kv.1 = "key_map" then acc else appendAt acc kv.1 kv.2) acc)
      acc) k
    = if k = "key_map" then lookupA acc k
      else match lookupA acc k, collectKey records k with
        | none, [] => none
        | o, col => some (o.getD [] ++ col) := by
  induction records with
  | nil =>
      intro acc _
      simp only [List.foldl_nil, collectKey, List.filterMap_nil]
      by_cases hk : k = "key_map"
      · rw [if_pos hk]
      · rw [if_neg hk]
        rcases h : lookupA acc k with _ | vs
        · rfl
        · simp
  | cons r rest ih =>
      intro acc hnd
      simp only [List.foldl_cons]
      rw [ih _ (fun x hx => hnd x (by simp [hx]))]
      rw [entryFold_lookup r acc k (hnd r (by simp))]
      have hcol : collectKey (r :: rest) k
          = match lookupA r k with
            | some v => v :: collectKey rest k
            | none => collectKey rest k := by
        simp only [collectKey, List.filterMap_cons]
        rcases lookupA r k with _ | v <;> rfl
      rw [hcol]
      by_cases hk : k = "key_map"
      · rw [if_pos hk, if_pos hk, if_pos hk]
      · rw [if_neg hk, if_neg hk, if_neg hk]
        rcases hr : lookupA r k with _ | v
        · rfl
        · rcases ha : lookupA acc k with _ | vs
          · rcases hc : collectKey rest k with _ | ⟨c, cs⟩ <;> simp
          · rcases hc : collectKey rest k with _ | ⟨c, cs⟩ <;> simp

theorem nodup_keys_entryFold (entry : Rec) :
    ∀ acc : List (String × List Value),
    (acc.map Prod.fst).Nodup →
    ((entry.foldl
      (fun acc kv => if kv.1 = "key_map" then acc else appendAt acc kv.1 kv.2)
      acc).map Prod.fst).Nodup := by
  induction entry with
  | nil => intro acc h; exact h
  | cons kv rest ih =>
      intro acc h
      rcases kv with ⟨k1, v1⟩
      simp only [List.foldl_cons]
      by_cases h1 : k1 = "key_map"
      · rw [if_pos h1]
        exact ih acc h
      · rw [if_neg h1]
        exact ih _ (nodup_keys_appendAt acc k1 v1 h)

theorem nodup_keys_buildAgg (records : List Rec) :
    ((buildAgg records).map Prod.fst).Nodup := by
  have : ∀ acc : List (String × List Value), (acc.map Prod.fst).Nodup →
      ((records.foldl
        (fun acc entry => entry.foldl
          (fun acc kv => if kv.1 = "key_map" then acc else appendAt acc kv.1 kv.2) acc)
        acc).map Prod.fst).Nodup := by
    induction records with
    | nil => intro acc h; exact h
    | cons r rest ih =>
        intro acc h
        simp only [List.foldl_cons]
        exact ih _ (nodup_keys_entryFold r acc h)
  exact this [] (by simp)

theorem payloadFold_lookup (agg : List (String × List Value)) (k : String) :
    ∀ p : List (String × Agg),
    (agg.map Prod.fst).Nodup →
    lookupA (agg.foldl
      (fun p kv =>
        if kv.1 = "raw_block" then setOrd p kv.1 (.objArray kv.2)
        else match _stack_values kv.2 with
          | .ok a => setOrd p kv.1 a
          | .error _ => setOrd p kv.1 (.objArray kv.2)) p) k
    = match lookupA agg k with
      | some vs => some (if k = "raw_block" then .objArray vs
          else match _stack_values vs with
            | .ok a => a
            | .error _ => .objArray vs)
      | none => lookupA p k := by
  induction agg with
  | nil =>
      intro p _
      rfl
  | cons kv rest ih =>
      intro p hnd
      rcases kv with ⟨k1, vs1⟩
      simp only [List.map_cons, List.nodup_cons] at hnd
      simp only [List.foldl_cons]
      have hstep : ∀ q : List (String × Agg),
          lookupA (rest.foldl
            (fun p kv =>
              if kv.1 = "raw_block" then setOrd p kv.1 (.objArray kv.2)
              else match _stack_values kv.2 with
                | .ok a => setOrd p kv.1 a
                | .error _ => setOrd p kv.1 (.objArray kv.2)) q) k
          = match lookupA rest k with
            | some vs => some (if k = "raw_block" then .objArray vs
                else match _stack_values vs with
                  | .ok a => a
                  | .error _ => .objArray vs)
            | none => lookupA q k := fun q => ih q hnd.2
      by_cases h1 : k1 = k
      · subst h1
        have hrest : lookupA rest k1 = none :=
          (lookupA_eq_none_iff rest k1).mpr hnd.1
        by_cases hrb : k1 = "raw_block"
        · subst hrb
          simp [hstep, hrest, lookupA_setOrd_self, lookupA]
        · rw [if_neg hrb]
          rcases hsv : _stack_values vs1 with e | a
          · simp [hsv, hstep, hrest, lookupA_setOrd_self, lookupA, hrb]
          · simp [hsv, hstep, hrest, lookupA_setOrd_self, lookupA, hrb]
      · have hne : ¬(k = k1) := fun hc => h1 hc.symm
        by_cases hrb : k1 = "raw_block"
        · subst hrb
          simp only [if_pos rfl, hstep, lookupA, if_neg h1]
          rcases hr : lookupA rest k with _ | vs
          · exact lookupA_setOrd_ne _ _ _ _ hne
          · rfl
        · rw [if_neg hrb]
          rcases hsv : _stack_values vs1 with e | a
          · simp only [hsv, hstep, lookupA, if_neg h1]
            rcases hr : lookupA rest k with _ | vs
            · exact lookupA_setOrd_ne _ _ _ _ hne
            · rfl
          · simp only [hsv, hstep, lookupA, if_neg h1]
            rcases hr : lookupA rest k with _ | vs
            · exact lookupA_setOrd_ne _ _ _ _ hne
            · rfl

theorem buildAgg_lookup (records : List Rec) (k : String)
    (hnd : ∀ r ∈ records, (r.map Prod.fst).Nodup) :
    lookupA (buildAgg records) k
    = if k = "key_map" then none
      else match collectKey records k with
        | [] => none
        | col => some col := by
  have := recordsFold_lookup records k [] hnd
  simp only [buildAgg]
  rw [this]
  by_cases hk : k = "key_map"
  · rw [if_pos hk, if_pos hk]
    rfl
  · rw [if_neg hk, if_neg hk]
    rcases hc : collectKey records k with _ | ⟨v, vs⟩
    · rfl
    · simp [lookupA]

theorem aggregate_lookup (records : List Rec) (k : String)
    (hne : records ≠ [])
    (hnd : ∀ r ∈ records, (r.map Prod.fst).Nodup)
    (hk : k ≠ "key_map") :
    lookupA (aggregate_cp_records records) k
    = match collectKey records k with
      | [] => none
      | col => some (if k = "raw_block" then .objArray col
          else match _stack_values col with
            | .ok a => a
            | .error _ => .objArray col) := by
  simp only [aggregate_cp_records]
  rw [if_neg (by simpa using hne)]
  rw [lookupA_setOrd_ne _ _ _ _ hk]
  rw [payloadFold_lookup (buildAgg records) k [] (nodup_keys_buildAgg records)]
  rw [buildAgg_lookup records k hnd, if_neg hk]
  rcases hc : collectKey records k with _ | ⟨v, vs⟩
  · rfl
  · rfl

theorem aggregate_keymap (records : List Rec) (hne : records ≠ []) :
    lookupA (aggregate_cp_records records) "key_map"
      = some (.keyMapArr (records.map keyMapOf)) := by
  simp only [aggregate_cp_records]
  rw [if_neg (by simpa using hne)]
  exact lookupA_setOrd_self _ _ _

/-! ## Claim C7 -/

theorem isNumV_shape (v : Value) (h : isNumV v = true) : shapeV v = some [] := by
  cases v <;> simp_all [isNumV, shapeV]

theorem isStrV_shape (v : Value) (h : isStrV v = true) : shapeV v = some [] := by
  cases v <;> simp_all [isStrV, shapeV]

theorem isIntV_num (v : Value) (h : isIntV v = true) : isNumV v = true := by
  cases v <;> simp_all [isIntV, isNumV]

/-- A shape mismatch forces the opaque boxed fallback of `_stack_values`:
either some value is inhomogeneous (`np.asarray` raises, caught by the
aggregator) or the shape set has at least two members. -/
theorem stack_values_mismatch (vs : List Value)
    (hmm : ∃ v ∈ vs, ∃ w ∈ vs, shapeV v ≠ shapeV w) :
    _stack_values vs = .error .valueError ∨ _stack_values vs = .ok (.objArray vs) := by
  obtain ⟨v, hv, w, hw, hvw⟩ := hmm
  have hne : vs ≠ [] := by
    intro he
    rw [he] at hv
    exact absurd hv (by simp)
  have hint : vs.all isIntV = false := by
    rw [Bool.eq_false_iff]
    intro hc
    have h1 := List.all_eq_true.mp hc
    exact hvw ((isNumV_shape v (isIntV_num v (h1 v hv))).trans
      (isNumV_shape w (isIntV_num w (h1 w hw))).symm)
  have hnum : vs.all isNumV = false := by
    rw [Bool.eq_false_iff]
    intro hc
    have h1 := List.all_eq_true.mp hc
    exact hvw ((isNumV_shape v (h1 v hv)).trans (isNumV_shape w (h1 w hw)).symm)
  have hstr : vs.all isStrV = false := by
    rw [Bool.eq_false_iff]
    intro hc
    have h1 := List.all_eq_true.mp hc
    exact hvw ((isStrV_shape v (h1 v hv)).trans (isStrV_shape w (h1 w hw)).symm)
  rcases vs with _ | ⟨v0, rest⟩
  · exact absurd rfl hne
  · simp only [_stack_values, hint, hnum, hstr, Bool.false_eq_true, if_false]
    by_cases hnone : (v0 :: rest).any (fun x => (shapeV x).isNone) = true
    · rw [if_pos hnone]
      exact Or.inl rfl
    · rw [if_neg hnone]
      have hsh : (v0 :: rest).all (fun x => shapeV x = shapeV v0) = false := by
        rw [Bool.eq_false_iff]
        intro hc
        have h1 := List.all_eq_true.mp hc
        have hv1 := h1 v hv
        have hw1 := h1 w hw
        simp only [decide_eq_true_eq] at hv1 hw1
        exact hvw (hv1.trans hw1.symm)
      rw [hsh]
      simp only [Bool.false_eq_true, if_false]
      exact Or.inr trivial

/-- C7: a key whose collected per-record values have inconsistent shapes is
always aggregated as the opaque boxed per-record array; the embedded
aggregator is total, so no exception escapes (a `ValueError` raised inside
`_stack_values` is caught and resolved to the same boxed array). -/
theorem C7_shape_mismatch_boxed (records : List Rec) (k : String) (vs : List Value)
    (hk : k ≠ "key_map")
    (hnd : ∀ r ∈ records, (r.map Prod.fst).Nodup)
    (hcol : collectKey records k = vs)
    (hmm : ∃ v ∈ vs, ∃ w ∈ vs, shapeV v ≠ shapeV w) :
    lookupA (aggregate_cp_records records) k = some (.objArray vs) := by
  have hvne : vs ≠ [] := by
    obtain ⟨v, hv, _⟩ := hmm
    intro he
    rw [he] at hv
    exact absurd hv (by simp)
  have hrne : records ≠ [] := by
    intro he
    rw [he] at hcol
    exact hvne (hcol.symm.trans rfl)
  rw [aggregate_lookup records k hrne hnd hk, hcol]
  rcases vs with _ | ⟨v0, rest⟩
  · exact absurd rfl hvne
  · dsimp only
    by_cases hrb : k = "raw_block"
    · rw [if_pos hrb]
    · rw [if_neg hrb]
      rcases stack_values_mismatch (v0 :: rest) hmm with h | h
      · rw [h]
      · rw [h]

/-- Witness for C7 (scenario D of the spec): record 1 holds scalar `1.0`
and record 2 the vector `[1.0, 2.0]` under key `q`; aggregation boxes. -/
theorem C7_witness :
    lookupA (aggregate_cp_records
        [[("q", .vfloat "1.0")], [("q", .vlist [.num "1.0", .num "2.0"])]]) "q"
      = some (.objArray [.vfloat "1.0", .vlist [.num "1.0", .num "2.0"]]) :=
  C7_shape_mismatch_boxed
    [[("q", .vfloat "1.0")], [("q", .vlist [.num "1.0", .num "2.0"])]] "q"
    [.vfloat "1.0", .vlist [.num "1.0", .num "2.0"]]
    (by decide) (by decide) (by decide)
    ⟨.vfloat "1.0", by decide, .vlist [.num "1.0", .num "2.0"], by decide, by decide⟩

/-! ## Claim C9 -/

/-- C9: for a non-empty record sequence the aggregate always holds a
`raw_block` column — the boxed object array of the records' captured spans,
never numerically stacked — and a `key_map` entry with exactly one
provenance map per record, in record order; the records' own `key_map`
entries are never merged into any per-key column (the collected-column map
`buildAgg` has no `key_map` key at all). -/
theorem C9_raw_block_key_map (records : List Rec)
    (hne : records ≠ [])
    (hnd : ∀ r ∈ records, (r.map Prod.fst).Nodup)
    (hrb : ∀ r ∈ records, (lookupA r "raw_block").isSome) :
    lookupA (aggregate_cp_records records) "raw_block"
      = some (.objArray (collectKey records "raw_block"))
    ∧ lookupA (aggregate_cp_records records) "key_map"
      = some (.keyMapArr (records.map keyMapOf))
    ∧ (records.map keyMapOf).length = records.length
    ∧ lookupA (buildAgg records) "key_map" = none := by
  refine ⟨?_, aggregate_keymap records hne, List.length_map _ _, ?_⟩
  · rw [aggregate_lookup records "raw_block" hne hnd (by decide)]
    have hcne : collectKey records "raw_block" ≠ [] := by
      rcases records with _ | ⟨r, rest⟩
      · exact absurd rfl hne
      · have h1 := hrb r (by simp)
        rcases h2 : lookupA r "raw_block" with _ | v
        · rw [h2] at h1
          exact absurd h1 (by simp)
        · simp only [collectKey, List.filterMap_cons, h2]
          simp
    rcases hc : collectKey records "raw_block" with _ | ⟨v, vs⟩
    · exact absurd hc hcne
    · dsimp only
      rw [if_pos rfl]
  · have := buildAgg_lookup records "key_map" hnd
    rw [this, if_pos rfl]

/-- Witness for C9: two finalized-shaped records with spans and provenance
maps. -/
theorem C9_witness :
    lookupA (aggregate_cp_records
        [[("cp_index", .vint 1), ("raw_block", .vstr "s1"),
          ("key_map", .vdict [("cp_index", "CP index")])],
         [("cp_index", .vint 2), ("raw_block", .vstr "s2"),
          ("key_map", .vdict [("cp_index", "CP index")])]]) "raw_block"
      = some (.objArray [.vstr "s1", .vstr "s2"])
    ∧ lookupA (aggregate_cp_records
        [[("cp_index", .vint 1), ("raw_block", .vstr "s1"),
          ("key_map", .vdict [("cp_index", "CP index")])],
         [("cp_index", .vint 2), ("raw_block", .vstr "s2"),
          ("key_map", .vdict [("cp_index", "CP index")])]]) "key_map"
      = some (.keyMapArr [.vdict [("cp_index", "CP index")],
                          .vdict [("cp_index", "CP index")]]) := by
  have h := C9_raw_block_key_map
    [[("cp_index", .vint 1), ("raw_block", .vstr "s1"),
      ("key_map", .vdict [("cp_index", "CP index")])],
     [("cp_index", .vint 2), ("raw_block", .vstr "s2"),
      ("key_map", .vdict [("cp_index", "CP index")])]]
    (by decide) (by decide) (by decide)
  exact ⟨h.1, h.2.1⟩

/-! ## Claim C3: header count and captured index/type -/

/-- The capture of a line that the segmenter accepts as a header: the
integer index and the stripped parenthesized type label. -/
def headerOf (line : String) : Option (Nat × String) :=
  if pseudoHeader (pyStrip line) then
    (headerSearch (pyStrip line)).map (fun g => (digitsToNat g.1, pyStrip ⟨g.2⟩))
  else none

/-- No line of the input is a malformed header (a pseudo-header divider
whose index/type capture fails). -/
def noMalformed (lines : List String) : Prop :=
  ∀ l ∈ lines, pseudoHeader (pyStrip l) = true → (headerSearch (pyStrip l)).isSome = true

/-- The line, if it is a colon line, does not write to the `cp_index` or
`cp_type` keys. -/
def colonSafeB (line : String) : Bool :=
  !hasColon (pyStrip line)
    || (_sanitize_key (pyStrip (splitColon (pyStrip line)).1) != "cp_index"
        && _sanitize_key (pyStrip (splitColon (pyStrip line)).1) != "cp_type")

/-- The index/type fields of a record. -/
def exIT (r : Rec) : Option Value × Option Value :=
  (lookupA r "cp_index", lookupA r "cp_type")

def openCount : Option Builder → Nat
  | none => 0
  | some _ => 1

def openEx : Option Builder → List (Option Value × Option Value)
  | none => []
  | some b => [(lookupA b.core.dict "cp_index", lookupA b.core.dict "cp_type")]

/-- Any pending matrix key sanitizes away from the `cp_index`/`cp_type`
keys. -/
def pendSafe : Option Builder → Prop
  | none => True
  | some b => ∀ mk, b.core.matrixKey = some mk →
      _sanitize_key mk ≠ "cp_index" ∧ _sanitize_key mk ≠ "cp_type"

theorem finalize_matrix_shape (c c2 : Core) (h : _finalize_matrix c = .ok c2) :
    c2.matrixKey = none ∧ c2.matrixRows = []
    ∧ (∀ K : String, (∀ mk, c.matrixKey = some mk → _sanitize_key mk ≠ K) →
        lookupA c2.dict K = lookupA c.dict K) := by
  simp only [_finalize_matrix] at h
  split at h
  · rename_i hcond
    split at h
    · rename_i mk hmk
      split at h
      · simp only [Except.ok.injEq] at h
        subst h
        refine ⟨rfl, rfl, ?_⟩
        intro K hK
        exact lookupA_setOrd_ne _ _ _ _ (fun hc => hK mk hmk hc.symm)
      · exact absurd h (by simp)
    · simp only [Except.ok.injEq] at h
      subst h
      exact ⟨rfl, rfl, fun K _ => rfl⟩
  · simp only [Except.ok.injEq] at h
    subst h
    exact ⟨rfl, rfl, fun K _ => rfl⟩

theorem finalizeBuilder_exIT (b : Builder) (r : Rec)
    (h : finalizeBuilder b = .ok r)
    (hp : ∀ mk, b.core.matrixKey = some mk →
      _sanitize_key mk ≠ "cp_index" ∧ _sanitize_key mk ≠ "cp_type") :
    exIT r = (lookupA b.core.dict "cp_index", lookupA b.core.dict "cp_type") := by
  simp only [finalizeBuilder] at h
  rcases hfm : _finalize_matrix b.core with e | c2 <;> rw [hfm] at h
  · exact absurd h (by simp)
  · simp only [Except.ok.injEq] at h
    subst h
    have hs := finalize_matrix_shape b.core c2 hfm
    have h1 := hs.2.2 "cp_index" (fun mk hmk => (hp mk hmk).1)
    have h2 := hs.2.2 "cp_type" (fun mk hmk => (hp mk hmk).2)
    simp only [exIT]
    rw [lookupA_setOrd_ne _ _ _ _ (by decide), lookupA_setOrd_ne _ _ _ _ (by decide),
      lookupA_setOrd_ne _ _ _ _ (by decide), lookupA_setOrd_ne _ _ _ _ (by decide),
      h1, h2]

theorem finalizeStep_shape (st st1 : PState) (h : finalizeStep st = .ok st1) :
    st1.cur = none
    ∧ st1.cps.length = st.cps.length + openCount st.cur
    ∧ (pendSafe st.cur → st1.cps.map exIT = st.cps.map exIT ++ openEx st.cur) := by
  simp only [finalizeStep] at h
  rcases hcur : st.cur with _ | b <;> rw [hcur] at h
  · simp only [Except.ok.injEq] at h
    subst h
    exact ⟨hcur, by simp [openCount], fun _ => by simp [openEx]⟩
  · dsimp only at h
    rcases hfb : finalizeBuilder b with e | r <;> rw [hfb] at h
    · exact absurd h (by simp)
    · simp only [Except.ok.injEq] at h
      subst h
      refine ⟨rfl, by simp [openCount], ?_⟩
      intro hps
      simp only [openEx, List.map_append, List.map_cons, List.map_nil]
      rw [finalizeBuilder_exIT b r hfb hps]

theorem classStep_preserves_cp (c c' : Core) (s : String)
    (hcs : classStep c s = .ok c')
    (hsafe : hasColon s = true →
      _sanitize_key (pyStrip (splitColon s).1) ≠ "cp_index"
      ∧ _sanitize_key (pyStrip (splitColon s).1) ≠ "cp_type")
    (hpend : ∀ mk, c.matrixKey = some mk →
      _sanitize_key mk ≠ "cp_index" ∧ _sanitize_key mk ≠ "cp_type") :
    lookupA c'.dict "cp_index" = lookupA c.dict "cp_index"
    ∧ lookupA c'.dict "cp_type" = lookupA c.dict "cp_type"
    ∧ ∀ mk, c'.matrixKey = some mk →
        _sanitize_key mk ≠ "cp_index" ∧ _sanitize_key mk ≠ "cp_type" := by
  simp only [classStep] at hcs
  by_cases hs0 : s = ""
  · rw [if_pos hs0] at hcs
    have hsh := finalize_matrix_shape c c' hcs
    refine ⟨hsh.2.2 _ (fun mk h => (hpend mk h).1),
      hsh.2.2 _ (fun mk h => (hpend mk h).2), ?_⟩
    intro mk h
    rw [hsh.1] at h
    exact Option.noConfusion h
  · rw [if_neg hs0] at hcs
    rcases hnuc : nucleusMatch s with _ | ⟨n, lab⟩ <;> rw [hnuc] at hcs <;>
      dsimp only at hcs
    · by_cases hcol : hasColon s = true
      · rw [if_pos hcol] at hcs
        obtain ⟨hsafe1, hsafe2⟩ := hsafe hcol
        rcases hfm : _finalize_matrix c with e | c1 <;> rw [hfm] at hcs
        · exact absurd hcs (by simp)
        · have hsh := finalize_matrix_shape c c1 hfm
          have hd1 : lookupA c1.dict "cp_index" = lookupA c.dict "cp_index" :=
            hsh.2.2 _ (fun mk h => (hpend mk h).1)
          have hd2 : lookupA c1.dict "cp_type" = lookupA c.dict "cp_type" :=
            hsh.2.2 _ (fun mk h => (hpend mk h).2)
          dsimp only at hcs
          by_cases hlab : (endsWithS (pyLower (pyStrip (splitColon s).1)) "matrix"
              || startsWithS (pyLower (pyStrip (splitColon s).1)) "eigenvectors") = true
          · rw [if_pos hlab] at hcs
            split at hcs
            · split at hcs
              · simp only [Except.ok.injEq] at hcs
                subst hcs
                refine ⟨?_, ?_, ?_⟩
                · rw [lookupA_setOrd_ne _ _ _ _ (Ne.symm hsafe1)]
                  exact hd1
                · rw [lookupA_setOrd_ne _ _ _ _ (Ne.symm hsafe2)]
                  exact hd2
                · intro mk h
                  simp only [Option.some.injEq] at h
                  subst h
                  exact ⟨hsafe1, hsafe2⟩
              · simp only [Except.ok.injEq] at hcs
                subst hcs
                refine ⟨hd1, hd2, ?_⟩
                intro mk h
                simp only [Option.some.injEq] at h
                subst h
                exact ⟨hsafe1, hsafe2⟩
            · simp only [Except.ok.injEq] at hcs
              subst hcs
              refine ⟨?_, ?_, ?_⟩
              · rw [lookupA_setOrd_ne _ _ _ _ (Ne.symm hsafe1)]
                exact hd1
              · rw [lookupA_setOrd_ne _ _ _ _ (Ne.symm hsafe2)]
                exact hd2
              · intro mk h
                simp only [Option.some.injEq] at h
                subst h
                exact ⟨hsafe1, hsafe2⟩
            · simp only [Except.ok.injEq] at hcs
              subst hcs
              refine ⟨?_, ?_, ?_⟩
              · rw [lookupA_setOrd_ne _ _ _ _ (Ne.symm hsafe1)]
                exact hd1
              · rw [lookupA_setOrd_ne _ _ _ _ (Ne.symm hsafe2)]
                exact hd2
              · intro mk h
                simp only [Option.some.injEq] at h
                subst h
                exact ⟨hsafe1, hsafe2⟩
          · rw [if_neg hlab] at hcs
            have hmk1 : ∀ mk, c1.matrixKey = some mk →
                _sanitize_key mk ≠ "cp_index" ∧ _sanitize_key mk ≠ "cp_type" := by
              intro mk h
              rw [hsh.1] at h
              exact Option.noConfusion h
            split at hcs
            · split at hcs
              · simp only [Except.ok.injEq] at hcs
                subst hcs
                refine ⟨?_, ?_, hmk1⟩
                · rw [lookupA_setOrd_ne _ _ _ _ (Ne.symm hsafe1)]
                  exact hd1
                · rw [lookupA_setOrd_ne _ _ _ _ (Ne.symm hsafe2)]
                  exact hd2
              · simp only [Except.ok.injEq] at hcs
                subst hcs
                exact ⟨hd1, hd2, hmk1⟩
            · simp only [Except.ok.injEq] at hcs
              subst hcs
              refine ⟨?_, ?_, hmk1⟩
              · rw [lookupA_setOrd_ne _ _ _ _ (Ne.symm hsafe1)]
                exact hd1
              · rw [lookupA_setOrd_ne _ _ _ _ (Ne.symm hsafe2)]
                exact hd2
            · simp only [Except.ok.injEq] at hcs
              subst hcs
              refine ⟨?_, ?_, hmk1⟩
              · rw [lookupA_setOrd_ne _ _ _ _ (Ne.symm hsafe1)]
                exact hd1
              · rw [lookupA_setOrd_ne _ _ _ _ (Ne.symm hsafe2)]
                exact hd2
      · rw [if_neg hcol] at hcs
        split at hcs
        · simp only [Except.ok.injEq] at hcs
          subst hcs
          exact ⟨rfl, rfl, hpend⟩
        · split at hcs
          · split at hcs
            · simp only [Except.ok.injEq] at hcs
              subst hcs
              refine ⟨?_, ?_, hpend⟩
              · rw [lookupA_setOrd_ne _ _ _ _ (by decide)]
              · rw [lookupA_setOrd_ne _ _ _ _ (by decide)]
            · simp only [Except.ok.injEq] at hcs
              subst hcs
              refine ⟨?_, ?_, hpend⟩
              · rw [lookupA_setOrd_ne _ _ _ _ (by decide)]
              · rw [lookupA_setOrd_ne _ _ _ _ (by decide)]
            · exact absurd hcs (by simp)
          · simp only [Except.ok.injEq] at hcs
            subst hcs
            exact ⟨rfl, rfl, hpend⟩
    · simp only [Except.ok.injEq] at hcs
      subst hcs
      refine ⟨?_, ?_, hpend⟩
      · dsimp only
        rw [lookupA_setOrd_ne _ _ _ _ (by decide), lookupA_setOrd_ne _ _ _ _ (by decide)]
      · dsimp only
        rw [lookupA_setOrd_ne _ _ _ _ (by decide), lookupA_setOrd_ne _ _ _ _ (by decide)]

theorem openCount_none : openCount none = 0 := rfl

theorem openCount_some (b : Builder) : openCount (some b) = 1 := rfl

theorem openEx_none : openEx none = [] := rfl

theorem openEx_some (b : Builder) :
    openEx (some b) = [(lookupA b.core.dict "cp_index", lookupA b.core.dict "cp_type")] := rfl

theorem runLines_inv (lines : List String) :
    ∀ (st st' : PState),
    noMalformed lines →
    runLines st lines = .ok st' →
    (st'.cps.length + openCount st'.cur
       = st.cps.length + openCount st.cur + (lines.filterMap headerOf).length)
    ∧ ((∀ l ∈ lines, colonSafeB l = true) → pendSafe st.cur →
        (st'.cps.map exIT ++ openEx st'.cur
          = st.cps.map exIT ++ openEx st.cur
            ++ (lines.filterMap headerOf).map
                (fun g => (some (.vint g.1), some (.vstr g.2)))
         ∧ pendSafe st'.cur)) := by
  induction lines with
  | nil =>
      intro st st' _ hrun
      simp only [runLines, Except.ok.injEq] at hrun
      subst hrun
      exact ⟨by simp, fun _ hp => ⟨by simp, hp⟩⟩
  | cons l rest ih =>
      intro st st' hnm hrun
      simp only [runLines] at hrun
      rcases hsl : stepLine st l with e | st1 <;> rw [hsl] at hrun
      · exact absurd hrun (by simp)
      · have hnmRest : noMalformed rest := fun x hx => hnm x (by simp [hx])
        by_cases hph : pseudoHeader (pyStrip l) = true
        · have hsome := hnm l (by simp) hph
          rcases hhs : headerSearch (pyStrip l) with _ | ⟨ds, lab⟩
          · rw [hhs] at hsome
            exact absurd hsome (by simp)
          · simp only [stepLine] at hsl
            rw [if_pos hph, hhs] at hsl
            rcases hfs : finalizeStep st with e2 | st2 <;> rw [hfs] at hsl
            · exact absurd hsl (by simp)
            · simp only [Except.ok.injEq] at hsl
              have hshape := finalizeStep_shape st st2 hfs
              have hho : headerOf l = some (digitsToNat ds, pyStrip ⟨lab⟩) := by
                simp only [headerOf, if_pos hph, hhs]
                rfl
              have hfm : (l :: rest).filterMap headerOf
                  = (digitsToNat ds, pyStrip ⟨lab⟩) :: rest.filterMap headerOf := by
                simp only [List.filterMap_cons, hho]
              obtain ⟨hcount, hex⟩ := ih st1 st' hnmRest hrun
              constructor
              · rw [hfm, hcount, ← hsl]
                dsimp only
                rw [openCount_some, hshape.2.1]
                simp only [List.length_cons]
                omega
              · intro hsafe hpend
                have hpend1 : pendSafe st1.cur := by
                  rw [← hsl]
                  intro mk hmk
                  exact Option.noConfusion hmk
                obtain ⟨hex1, hpend'⟩ := ih st1 st' hnmRest hrun
                  |>.2 (fun x hx => hsafe x (by simp [hx])) hpend1
                refine ⟨?_, hpend'⟩
                rw [hex1, ← hsl]
                dsimp only
                rw [openEx_some]
                dsimp only
                rw [hshape.2.2 hpend]
                rw [hfm]
                simp only [List.map_cons]
                rw [show lookupA [("cp_index", Value.vint (digitsToNat ds)),
                      ("cp_type", Value.vstr (pyStrip ⟨lab⟩))] "cp_index"
                    = some (Value.vint (digitsToNat ds)) from rfl]
                rw [show lookupA [("cp_index", Value.vint (digitsToNat ds)),
                      ("cp_type", Value.vstr (pyStrip ⟨lab⟩))] "cp_type"
                    = some (Value.vstr (pyStrip ⟨lab⟩)) from rfl]
                simp
        · have hho : headerOf l = none := by
            simp only [headerOf, hph]
            simp
          have hfm : (l :: rest).filterMap headerOf = rest.filterMap headerOf := by
            simp only [List.filterMap_cons, hho]
          rcases hcur : st.cur with _ | b
          · simp only [stepLine, if_neg hph, hcur] at hsl
            simp only [Except.ok.injEq] at hsl
            subst hsl
            obtain ⟨hcount, hex⟩ := ih st st' hnmRest hrun
            rw [hcur] at hcount hex
            exact ⟨by rw [hfm]; exact hcount,
              fun hs hp => by
                rw [hfm]
                exact hex (fun x hx => hs x (by simp [hx])) hp⟩
          · simp only [stepLine, if_neg hph, hcur] at hsl
            rcases hclass : classStep b.core (pyStrip l) with e2 | c' <;>
              rw [hclass] at hsl
            · exact absurd hsl (by simp)
            · simp only [Except.ok.injEq] at hsl
              obtain ⟨hcount, hex⟩ := ih st1 st' hnmRest hrun
              constructor
              · rw [hfm, hcount, ← hsl]
                dsimp only
                rw [openCount_some, openCount_some]
              · intro hsafe hpend
                have hsafeL := hsafe l (by simp)
                have hsafeProp : hasColon (pyStrip l) = true →
                    _sanitize_key (pyStrip (splitColon (pyStrip l)).1) ≠ "cp_index"
                    ∧ _sanitize_key (pyStrip (splitColon (pyStrip l)).1) ≠ "cp_type" := by
                  intro hc
                  simp only [colonSafeB, hc, Bool.not_true, Bool.false_or,
                    Bool.and_eq_true, bne_iff_ne] at hsafeL
                  exact hsafeL
                have hcp := classStep_preserves_cp b.core c' (pyStrip l) hclass
                  hsafeProp (fun mk hmk => hpend mk hmk)
                have hpend1 : pendSafe st1.cur := by
                  rw [← hsl]
                  intro mk hmk
                  exact hcp.2.2 mk hmk
                obtain ⟨hex1, hpend'⟩ := hex (fun x hx => hsafe x (by simp [hx])) hpend1
                refine ⟨?_, hpend'⟩
                rw [hex1, ← hsl, hfm]
                dsimp only
                rw [openEx_some, openEx_some]
                dsimp only
                rw [hcp.1, hcp.2.1]

/-- Input of the C3 counterexample: a valid header (index 4) followed by a
field line whose label sanitizes to `cp_index`. -/
def c3lines : List String :=
  ["----------------   CP 4,     Type (3,-3)", "CP index: 7"]

/-- C3 (counterexample): with one valid header (index 4) and no malformed
headers, parsing yields one record, but its stored index is the float `7.0`
written by the later field line `CP index: 7`, not the integer 4 captured
from the header. -/
theorem C3_counterexample :
    (parse_cp_lines c3lines).map (List.map exIT)
      = .ok [(some (.vfloat "7"), some (.vstr "3,-3"))]
    ∧ c3lines.filterMap headerOf = [(4, "3,-3")]
    ∧ (some (Value.vfloat "7") : Option Value) ≠ some (.vint 4) := by
  refine ⟨by decide, by decide, by decide⟩

/-- C3 (amended): when parsing completes without an exception, the number of
records equals the number of valid header lines (malformed headers absent by
hypothesis); and if additionally no colon line's sanitized label collides
with `cp_index`/`cp_type`, each record's stored index and type are exactly
the integer and the parenthesized label captured from its header, in
order. -/
theorem C3_count_and_capture (lines : List String) (rs : List Rec)
    (hnm : noMalformed lines)
    (hok : parse_cp_lines lines = .ok rs) :
    rs.length = (lines.filterMap headerOf).length
    ∧ ((∀ l ∈ lines, colonSafeB l = true) →
        rs.map exIT = (lines.filterMap headerOf).map
          (fun g => (some (.vint g.1), some (.vstr g.2)))) := by
  simp only [parse_cp_lines] at hok
  rcases hrun : runLines ⟨[], none⟩ lines with e | stEnd <;> rw [hrun] at hok
  · exact absurd hok (by simp)
  · dsimp only at hok
    rcases hfs : finalizeStep stEnd with e | stF <;> rw [hfs] at hok
    · exact absurd hok (by simp)
    · simp only [Except.ok.injEq] at hok
      have hinv := runLines_inv lines ⟨[], none⟩ stEnd hnm hrun
      have hshape := finalizeStep_shape stEnd stF hfs
      constructor
      · rw [← hok]
        have h1 := hinv.1
        have h2 := hshape.2.1
        simp only [openCount_none, List.length_nil] at h1
        omega
      · intro hsafe
        obtain ⟨hex, hpend'⟩ := hinv.2 hsafe trivial
        rw [← hok]
        rw [hshape.2.2 hpend']
        simpa using hex

/-- Witness for C3: a single valid header, no malformed headers, and no
colliding colon lines; the parsed record's index/type equal the header
capture. -/
theorem C3_witness :
    ([[("cp_index", Value.vint 4), ("cp_type", Value.vstr "3,-3"),
       ("raw_block", Value.vstr "----------------   CP 4,     Type (3,-3)"),
       ("key_map", Value.vdict [("cp_index", "CP index"), ("cp_type", "CP type")])]]
      : List Rec).length
      = (["----------------   CP 4,     Type (3,-3)"].filterMap headerOf).length
    ∧ ([[("cp_index", Value.vint 4), ("cp_type", Value.vstr "3,-3"),
       ("raw_block", Value.vstr "----------------   CP 4,     Type (3,-3)"),
       ("key_map", Value.vdict [("cp_index", "CP index"), ("cp_type", "CP type")])]]
      : List Rec).map exIT
      = (["----------------   CP 4,     Type (3,-3)"].filterMap headerOf).map
          (fun g => (some (.vint g.1), some (.vstr g.2))) := by
  have h := C3_count_and_capture ["----------------   CP 4,     Type (3,-3)"]
    [[("cp_index", Value.vint 4), ("cp_type", Value.vstr "3,-3"),
      ("raw_block", Value.vstr "----------------   CP 4,     Type (3,-3)"),
      ("key_map", Value.vdict [("cp_index", "CP index"), ("cp_type", "CP type")])]]
    (by
      intro l hl _
      simp only [List.mem_singleton] at hl
      subst hl
      decide)
    (by decide)
  refine ⟨h.1, h.2 ?_⟩
  intro l hl
  simp only [List.mem_singleton] at hl
  subst hl
  decide

/-! ## Claim C6: round-trip stability of segmentation.
String algebra for `strip`, `rstrip`, `join` and `splitlines`. -/

theorem rdropWhileL_eq (p : Char → Bool) (cs : List Char) :
    rdropWhileL p cs = List.rdropWhile p cs := rfl

theorem dropWhile_idem_c (p : Char → Bool) (cs : List Char) :
    (cs.dropWhile p).dropWhile p = cs.dropWhile p := by
  apply dropWhile_id_of_head
  intro x hx
  exact head_dropWhile p cs x hx

theorem prefix_head_eq {l1 l2 : List Char} (h : l1 <+: l2) (hne : l1 ≠ []) :
    l1.head? = l2.head? := by
  obtain ⟨t, ht⟩ := h
  rw [← ht, List.head?_append_of_ne_nil _ hne]

theorem dropWhile_rdrop_comm (p : Char → Bool) (l : List Char) :
    (List.rdropWhile p l).dropWhile p = List.rdropWhile p (l.dropWhile p) := by
  by_cases hall : ∀ c ∈ l, p c = true
  · have h1 : List.rdropWhile p l = [] := List.rdropWhile_eq_nil_iff.mpr hall
    have h2 : l.dropWhile p = [] := List.dropWhile_eq_nil_iff.mpr hall
    rw [h1, h2]
    simp [List.rdropWhile_nil]
  · have hsplit : l.takeWhile p ++ l.dropWhile p = l := List.takeWhile_append_dropWhile p l
    have htw : ∀ c ∈ l.takeWhile p, p c = true := fun c hc => List.mem_takeWhile_imp hc
    have hdw_ne : l.dropWhile p ≠ [] := by
      intro he
      exact hall (fun c hc => by
        rw [← hsplit] at hc
        rcases List.mem_append.mp hc with h | h
        · exact htw c h
        · rw [he] at h
          exact absurd h (by simp))
    have hrd_ne : List.rdropWhile p (l.dropWhile p) ≠ [] := by
      rw [Ne, List.rdropWhile_eq_nil_iff]
      intro hc
      rcases hx : l.dropWhile p with _ | ⟨x, t⟩
      · exact hdw_ne hx
      · have hhead : p x = false := head_dropWhile p l x (by rw [hx]; rfl)
        have := hc x (by rw [hx]; simp)
        rw [this] at hhead
        exact Bool.noConfusion hhead
    have hstep1 : List.rdropWhile p l
        = l.takeWhile p ++ List.rdropWhile p (l.dropWhile p) := by
      rw [show List.rdropWhile p l = List.rdropWhile p (l.takeWhile p ++ l.dropWhile p)
          from by rw [hsplit]]
      rw [List.rdropWhile, List.reverse_append, List.dropWhile_append]
      have : ((l.dropWhile p).reverse.dropWhile p).isEmpty = false := by
        rw [List.isEmpty_eq_false]
        intro he
        apply hrd_ne
        rw [List.rdropWhile]
        rw [he]
        rfl
      rw [this]
      simp only [Bool.false_eq_true, if_false, List.reverse_append,
        List.reverse_reverse]
      rw [show (l.dropWhile p).reverse.dropWhile p
          = (List.rdropWhile p (l.dropWhile p)).reverse from by
        rw [List.rdropWhile, List.reverse_reverse]]
      rw [List.reverse_reverse]
    rw [hstep1, List.dropWhile_append]
    have h2 : ((l.takeWhile p).dropWhile p).isEmpty = true := by
      rw [List.isEmpty_eq_true]
      exact List.dropWhile_eq_nil_iff.mpr htw
    rw [h2]
    simp only [if_true]
    apply dropWhile_id_of_head
    intro x hx
    have hpre : List.rdropWhile p (l.dropWhile p) <+: l.dropWhile p :=
      List.rdropWhile_prefix p (l.dropWhile p)
    have := prefix_head_eq hpre hrd_ne
    rw [hx] at this
    exact head_dropWhile p l x this.symm

theorem pyStripL_idem (cs : List Char) : pyStripL (pyStripL cs) = pyStripL cs := by
  simp only [pyStripL, rdropWhileL_eq]
  rw [dropWhile_rdrop_comm, dropWhile_idem_c, List.rdropWhile_idempotent]

theorem pyStrip_idem (s : String) : pyStrip (pyStrip s) = pyStrip s := by
  simp only [pyStrip]
  rw [pyStripL_idem]

theorem pyStripL_rdrop (cs : List Char) :
    pyStripL (rdropWhileL pyIsSpace cs) = pyStripL cs := by
  simp only [pyStripL, rdropWhileL_eq]
  rw [dropWhile_rdrop_comm, List.rdropWhile_idempotent]

theorem pyStrip_rstrip (s : String) : pyStrip (pyRstrip s) = pyStrip s := by
  simp only [pyStrip, pyRstrip]
  rw [show pyStripL (String.mk (rdropWhileL pyIsSpace s.data)).data
      = pyStripL s.data from pyStripL_rdrop s.data]

theorem pyStripL_nil_iff (cs : List Char) :
    pyStripL cs = [] ↔ ∀ c ∈ cs, pyIsSpace c = true := by
  simp only [pyStripL, rdropWhileL_eq]
  constructor
  · intro h c hc
    have hall := List.rdropWhile_eq_nil_iff.mp h
    by_cases hmem : c ∈ cs.dropWhile pyIsSpace
    · exact hall c hmem
    · have hsplit := List.takeWhile_append_dropWhile pyIsSpace cs
      rw [← hsplit] at hc
      rcases List.mem_append.mp hc with h1 | h1
      · exact List.mem_takeWhile_imp h1
      · exact absurd h1 hmem
  · intro h
    rw [List.dropWhile_eq_nil_iff.mpr (fun c hc => h c hc)]
    exact List.rdropWhile_nil _

theorem pyStripL_mem (cs : List Char) (c : Char) (h : c ∈ pyStripL cs) : c ∈ cs := by
  simp only [pyStripL, rdropWhileL_eq] at h
  have h1 := (List.rdropWhile_prefix pyIsSpace (cs.dropWhile pyIsSpace)).subset h
  exact (List.dropWhile_suffix pyIsSpace).subset h1

theorem pyStripL_eq_self (cs : List Char) (h : pyStripL cs = cs) :
    cs.dropWhile pyIsSpace = cs ∧ List.rdropWhile pyIsSpace cs = cs := by
  have hd : (cs.dropWhile pyIsSpace).length = cs.length := by
    have h1 : (pyStripL cs).length ≤ (cs.dropWhile pyIsSpace).length := by
      simp only [pyStripL, rdropWhileL_eq]
      exact (List.rdropWhile_prefix _ _).length_le
    have h2 : (cs.dropWhile pyIsSpace).length ≤ cs.length :=
      (List.dropWhile_suffix pyIsSpace).length_le
    rw [h] at h1
    omega
  have hdw : cs.dropWhile pyIsSpace = cs :=
    (List.dropWhile_suffix pyIsSpace).sublist.eq_of_length hd
  constructor
  · exact hdw
  · have : List.rdropWhile pyIsSpace cs = cs := by
      rw [show List.rdropWhile pyIsSpace cs = pyStripL cs from by
        simp only [pyStripL, rdropWhileL_eq, hdw]]
      exact h
    exact this

theorem pyStripL_last_not (cs : List Char) (h : pyStripL cs = cs) :
    ∀ c, cs.getLast? = some c → pyIsSpace c = false := by
  intro c hc
  have hr := (pyStripL_eq_self cs h).2
  by_contra hp
  have hp' : pyIsSpace c = true := by
    rcases hx : pyIsSpace c with _ | _
    · exact absurd hx hp
    · rfl
  have hne : cs ≠ [] := by
    intro he
    rw [he] at hc
    exact Option.noConfusion hc
  have hlast := List.rdropWhile_last_not (p := pyIsSpace) (l := cs) (by rw [hr]; exact hne)
  rw [List.getLast?_eq_getLast _ hne] at hc
  simp only [Option.some.injEq] at hc
  apply hlast
  rw [show (List.rdropWhile pyIsSpace cs).getLast (by rw [hr]; exact hne)
      = cs.getLast hne from by congr 1 <;> rw [hr]]
  rw [hc]
  exact hp'

theorem noNL_rstripNL (l : String) (h : '\n' ∉ l.data) : pyRstripNL l = l := by
  simp only [pyRstripNL, rdropWhileL_eq]
  rw [List.rdropWhile_eq_self_iff.mpr]
  · intro hl
    intro hc
    simp only [decide_eq_true_eq] at hc
    exact h (hc ▸ List.getLast_mem hl)

theorem pseudoHeader_head (h : String) (hp : pseudoHeader h = true) :
    h.data.head? = some '-' := by
  simp only [pseudoHeader, Bool.and_eq_true] at hp
  have hpre := List.isPrefixOf_iff_prefix.mp hp.1.1
  obtain ⟨t, ht⟩ := hpre
  rw [← ht]
  rfl

theorem joinNL_cons_of_ne (x : String) (xs : List String) (h : xs ≠ []) :
    joinNL (x :: xs) = x ++ "\n" ++ joinNL xs := by
  rcases xs with _ | ⟨y, ys⟩
  · exact absurd rfl h
  · rfl

theorem joinNL_append (a b : List String) (ha : a ≠ []) (hb : b ≠ []) :
    joinNL (a ++ b) = joinNL a ++ "\n" ++ joinNL b := by
  induction a with
  | nil => exact absurd rfl ha
  | cons x xs ih =>
      rcases hxs : xs with _ | ⟨y, ys⟩
      · subst hxs
        simp only [List.nil_append, List.singleton_append]
        exact joinNL_cons_of_ne x b hb
      · subst hxs
        rw [List.cons_append, joinNL_cons_of_ne x _ (by simp),
          joinNL_cons_of_ne x _ (by simp), ih (by simp)]
        simp [String.append_assoc]

theorem joinNL_flatten (Ls : List (List String)) (h : ∀ L ∈ Ls, L ≠ []) :
    joinNL (Ls.map joinNL) = joinNL Ls.flatten := by
  induction Ls with
  | nil => rfl
  | cons L rest ih =>
      rcases hrest : rest with _ | ⟨M, ms⟩
      · subst hrest
        simp [joinNL]
      · subst hrest
        have hLne : L ≠ [] := h L (by simp)
        have hjne : (M :: ms).flatten ≠ [] := by
          have hM : M ≠ [] := h M (by simp)
          rcases M with _ | ⟨m, ms2⟩
          · exact absurd rfl hM
          · simp
        rw [List.map_cons, joinNL_cons_of_ne _ _ (by simp)]
        rw [ih (fun x hx => h x (by simp [hx]))]
        rw [show (L :: M :: ms).flatten = L ++ (M :: ms).flatten from rfl]
        rw [joinNL_append L (M :: ms).flatten hLne hjne]

theorem splitNLAux_no_nl (xs : List Char) :
    ∀ acc : List Char, '\n' ∉ xs → (xs ≠ [] ∨ acc ≠ []) →
    splitNLAux xs acc = [acc.reverse ++ xs] := by
  induction xs with
  | nil =>
      intro acc _ hne
      rcases hne with h1 | h1
      · exact absurd rfl h1
      · simp only [splitNLAux]
        rw [if_neg (by simpa using h1)]
        simp
  | cons c rest ih =>
      intro acc h _
      simp only [splitNLAux]
      rw [if_neg (by
        intro hc
        exact h (by rw [hc]; simp))]
      rw [ih (c :: acc) (fun hc => h (by simp [hc])) (by right; simp)]
      simp

theorem splitNLAux_append_nl (xs ys : List Char) :
    ∀ acc : List Char, '\n' ∉ xs →
    splitNLAux (xs ++ '\n' :: ys) acc = (acc.reverse ++ xs) :: splitNLAux ys [] := by
  induction xs with
  | nil =>
      intro acc _
      simp only [List.nil_append, splitNLAux, if_pos rfl]
      simp
  | cons c rest ih =>
      intro acc h
      simp only [List.cons_append, splitNLAux]
      rw [if_neg (by
        intro hc
        exact h (by rw [hc]; simp))]
      have hih := ih (c :: acc) (fun hc => h (by simp [hc]))
      rw [show rest.append ('\n' :: ys) = rest ++ '\n' :: ys from rfl, hih]
      simp

theorem splitNL_joinNL : ∀ (ls : List String), (∀ l ∈ ls, '\n' ∉ l.data) →
    ls ≠ [] → ls.getLast? ≠ some "" → splitNL (joinNL ls) = ls := by
  intro ls
  induction ls with
  | nil =>
      intro _ hne _
      exact absurd rfl hne
  | cons x xs ih =>
      intro h _ hlast
      rcases hxs : xs with _ | ⟨y, ys⟩
      · subst hxs
        rcases x with ⟨xd⟩
        simp only [joinNL, splitNL]
        rcases hxd : xd with _ | ⟨c, cs⟩
        · subst hxd
          exact absurd (by simp) hlast
        · subst hxd
          rw [splitNLAux_no_nl (c :: cs) [] (by
            have := h ⟨c :: cs⟩ (by simp)
            simpa using this) (by simp)]
          simp
      · subst hxs
        rw [show (x :: y :: ys) = [x] ++ y :: ys from rfl,
          joinNL_append [x] (y :: ys) (by simp) (by simp)]
        simp only [splitNL]
        rw [show (joinNL [x] ++ "\n" ++ joinNL (y :: ys)).data
            = x.data ++ '\n' :: (joinNL (y :: ys)).data from by
          rw [String.data_append, String.data_append]
          simp [joinNL]]
        rw [splitNLAux_append_nl x.data (joinNL (y :: ys)).data [] (h x (by simp))]
        simp only [List.reverse_nil, List.nil_append, List.map_cons]
        rw [show (String.mk x.data) = x from by cases x; rfl]
        have hih := ih (fun l hl => h l (by simp [hl])) (by simp)
          (by
            rw [← List.getLast?_cons_cons (a := x)]
            exact hlast)
        simp only [splitNL] at hih
        rw [hih]
        rfl

/-! ### The raw span as a line list

`finalize_current` stores `"\n".join(raw_lines).strip()` as `raw_block`.
Since the first raw line is the stripped header (nonempty, starting with
`'-'`), the leading strip is a no-op and the trailing strip amounts to
dropping trailing all-whitespace lines and right-stripping the last
surviving line.  `cleanTrail` performs that clean-up on a line list. -/

/-- A line whose characters are all whitespace (its `strip()` is empty). -/
def isBlankL (l : String) : Bool := l.data.all pyIsSpace

/-- Helper on the reversed line list: drop the leading (i.e. trailing)
blank lines and right-strip the first surviving one. -/
def cleanTrailRev : List String → List String
  | [] => []
  | x :: rest => if isBlankL x then cleanTrailRev rest else pyRstrip x :: rest

/-- Drop trailing blank lines and right-strip the last surviving line. -/
def cleanTrail (ls : List String) : List String :=
  (cleanTrailRev ls.reverse).reverse

theorem rdropWhileL_append_all (p : Char → Bool) (a b : List Char)
    (hb : ∀ c ∈ b, p c = true) :
    rdropWhileL p (a ++ b) = rdropWhileL p a := by
  simp only [rdropWhileL, List.reverse_append]
  rw [List.dropWhile_append]
  have hemp : (b.reverse.dropWhile p).isEmpty = true := by
    rw [List.isEmpty_eq_true]
    exact List.dropWhile_eq_nil_iff.mpr (fun c hc => hb c (List.mem_reverse.mp hc))
  rw [hemp]
  simp

theorem rdropWhileL_append_ne (p : Char → Bool) (a b : List Char)
    (hb : rdropWhileL p b ≠ []) :
    rdropWhileL p (a ++ b) = a ++ rdropWhileL p b := by
  simp only [rdropWhileL, List.reverse_append]
  rw [List.dropWhile_append]
  have hemp : (b.reverse.dropWhile p).isEmpty = false := by
    rw [List.isEmpty_eq_false]
    intro he
    apply hb
    simp only [rdropWhileL, he, List.reverse_nil]
  rw [hemp]
  simp [List.reverse_append]

theorem isBlankL_strip (l : String) (h : isBlankL l = true) : pyStrip l = "" := by
  simp only [isBlankL, List.all_eq_true] at h
  simp only [pyStrip]
  rw [show pyStripL l.data = [] from (pyStripL_nil_iff l.data).mpr (fun c hc => h c hc)]

theorem isBlankL_rstrip_ne (l : String) (h : isBlankL l = false) :
    rdropWhileL pyIsSpace l.data ≠ [] := by
  rw [rdropWhileL_eq, Ne, List.rdropWhile_eq_nil_iff]
  intro hall
  have hb : isBlankL l = true := by
    simp only [isBlankL, List.all_eq_true]
    exact fun c hc => hall c hc
  rw [h] at hb
  exact Bool.noConfusion hb

theorem rdropWhileL_mem (p : Char → Bool) (cs : List Char) (c : Char)
    (h : c ∈ rdropWhileL p cs) : c ∈ cs := by
  simp only [rdropWhileL_eq] at h
  exact (List.rdropWhile_prefix p cs).subset h

theorem cleanTrail_concat_blank (bs : List String) (x : String)
    (hx : isBlankL x = true) :
    cleanTrail (bs ++ [x]) = cleanTrail bs := by
  simp [cleanTrail, cleanTrailRev, hx]

theorem cleanTrail_concat_nonblank (bs : List String) (x : String)
    (hx : isBlankL x = false) :
    cleanTrail (bs ++ [x]) = bs ++ [pyRstrip x] := by
  simp [cleanTrail, cleanTrailRev, hx]

theorem cleanTrailRev_mem (xs : List String) (y : String)
    (h : y ∈ cleanTrailRev xs) : y ∈ xs ∨ ∃ z ∈ xs, y = pyRstrip z := by
  induction xs with
  | nil => simp [cleanTrailRev] at h
  | cons x rest ih =>
      simp only [cleanTrailRev] at h
      by_cases hx : isBlankL x
      · rw [if_pos hx] at h
        rcases ih h with h1 | ⟨z, hz, he⟩
        · exact Or.inl (by simp [h1])
        · exact Or.inr ⟨z, by simp [hz], he⟩
      · rw [if_neg hx] at h
        rcases List.mem_cons.mp h with h1 | h1
        · exact Or.inr ⟨x, by simp, h1⟩
        · exact Or.inl (by simp [h1])

theorem cleanTrail_mem (ls : List String) (y : String) (h : y ∈ cleanTrail ls) :
    y ∈ ls ∨ ∃ z ∈ ls, y = pyRstrip z := by
  simp only [cleanTrail, List.mem_reverse] at h
  rcases cleanTrailRev_mem ls.reverse y h with h1 | ⟨z, hz, he⟩
  · exact Or.inl (List.mem_reverse.mp h1)
  · exact Or.inr ⟨z, List.mem_reverse.mp hz, he⟩

theorem cleanTrailRev_head (xs : List String) (t : String)
    (h : (cleanTrailRev xs).head? = some t) : t ≠ "" := by
  induction xs with
  | nil => simp [cleanTrailRev] at h
  | cons x rest ih =>
      simp only [cleanTrailRev] at h
      by_cases hx : isBlankL x
      · rw [if_pos hx] at h
        exact ih h
      · rw [if_neg hx] at h
        simp only [List.head?_cons, Option.some.injEq] at h
        subst h
        intro he
        apply isBlankL_rstrip_ne x (Bool.eq_false_iff.mpr hx)
        have hdata : (pyRstrip x).data = [] := by rw [he]
        simpa [pyRstrip] using hdata

theorem cleanTrail_last (ls : List String) (t : String)
    (h : (cleanTrail ls).getLast? = some t) : t ≠ "" := by
  apply cleanTrailRev_head ls.reverse
  simp only [cleanTrail] at h
  rw [← List.getLast?_reverse]
  exact h

theorem joinNL_head (hd : String) (bs : List String) (hne : hd.data ≠ []) :
    (joinNL (hd :: bs)).data.head? = hd.data.head? := by
  rcases bs with _ | ⟨b, bs2⟩
  · rfl
  · rw [joinNL_cons_of_ne hd _ (by simp)]
    rw [String.data_append, String.data_append]
    rw [List.append_assoc, List.head?_append_of_ne_nil _ hne]

theorem strip_join (hd : String) :
    ∀ (body : List String), hd.data ≠ [] →
    (∀ c, hd.data.head? = some c → pyIsSpace c = false) →
    rdropWhileL pyIsSpace hd.data = hd.data →
    pyStrip (joinNL (hd :: body)) = joinNL (hd :: cleanTrail body) := by
  intro body
  induction body using List.reverseRecOn with
  | nil =>
      intro _ hhead hrs
      show pyStrip hd = joinNL [hd]
      simp only [pyStrip, pyStripL, joinNL]
      rw [dropWhile_id_of_head pyIsSpace hd.data hhead, hrs]
  | append_singleton bs x ih =>
      intro hne hhead hrs
      have hJhead : (joinNL (hd :: bs)).data.head? = hd.data.head? :=
        joinNL_head hd bs hne
      have hJne : (joinNL (hd :: bs)).data ≠ [] := by
        intro he
        rw [he] at hJhead
        rcases hdd : hd.data with _ | ⟨c, cs⟩
        · exact hne hdd
        · rw [hdd] at hJhead
          exact Option.noConfusion hJhead
      have hD : (joinNL (hd :: (bs ++ [x]))).data
          = (joinNL (hd :: bs)).data ++ ('\n' :: x.data) := by
        rw [show hd :: (bs ++ [x]) = (hd :: bs) ++ [x] from by simp]
        rw [joinNL_append (hd :: bs) [x] (by simp) (by simp)]
        rw [show joinNL [x] = x from rfl]
        rw [String.data_append, String.data_append]
        rw [show ("\n" : String).data = ['\n'] from rfl, List.append_assoc]
        rfl
      have hdw : ((joinNL (hd :: bs)).data ++ ('\n' :: x.data)).dropWhile pyIsSpace
          = (joinNL (hd :: bs)).data ++ ('\n' :: x.data) := by
        apply dropWhile_id_of_head
        intro c hc
        rw [List.head?_append_of_ne_nil _ hJne, hJhead] at hc
        exact hhead c hc
      by_cases hxb : isBlankL x = true
      · have hall : ∀ c ∈ ('\n' :: x.data), pyIsSpace c = true := by
          intro c hc
          rcases List.mem_cons.mp hc with h1 | h1
          · subst h1
            decide
          · simp only [isBlankL, List.all_eq_true] at hxb
            exact hxb c h1
        calc pyStrip (joinNL (hd :: (bs ++ [x])))
            = ⟨rdropWhileL pyIsSpace ((joinNL (hd :: bs)).data)⟩ := by
              apply congrArg String.mk
              show pyStripL (joinNL (hd :: (bs ++ [x]))).data
                  = rdropWhileL pyIsSpace ((joinNL (hd :: bs)).data)
              rw [hD]
              simp only [pyStripL]
              rw [hdw, rdropWhileL_append_all pyIsSpace _ _ hall]
          _ = pyStrip (joinNL (hd :: bs)) := by
              apply congrArg String.mk
              show rdropWhileL pyIsSpace ((joinNL (hd :: bs)).data)
                  = pyStripL (joinNL (hd :: bs)).data
              simp only [pyStripL]
              rw [dropWhile_id_of_head pyIsSpace _
                (fun c hc => hhead c (by rwa [hJhead] at hc))]
          _ = joinNL (hd :: cleanTrail bs) := ih hne hhead hrs
          _ = joinNL (hd :: cleanTrail (bs ++ [x])) := by
              rw [cleanTrail_concat_blank bs x hxb]
      · have hxb' : isBlankL x = false := Bool.eq_false_iff.mpr hxb
        have hrdx : rdropWhileL pyIsSpace ('\n' :: x.data)
            = '\n' :: rdropWhileL pyIsSpace x.data := by
          rw [show ('\n' :: x.data) = ['\n'] ++ x.data from rfl]
          rw [rdropWhileL_append_ne pyIsSpace ['\n'] x.data (isBlankL_rstrip_ne x hxb')]
          rfl
        have hmain : rdropWhileL pyIsSpace
              ((joinNL (hd :: bs)).data ++ ('\n' :: x.data))
            = (joinNL (hd :: bs)).data ++ ('\n' :: rdropWhileL pyIsSpace x.data) := by
          rw [rdropWhileL_append_ne pyIsSpace _ _ (by
            rw [hrdx]
            simp)]
          rw [hrdx]
        rw [cleanTrail_concat_nonblank bs x hxb']
        have hD2 : (joinNL (hd :: (bs ++ [pyRstrip x]))).data
            = (joinNL (hd :: bs)).data ++ ('\n' :: rdropWhileL pyIsSpace x.data) := by
          rw [show hd :: (bs ++ [pyRstrip x]) = (hd :: bs) ++ [pyRstrip x] from by simp]
          rw [joinNL_append (hd :: bs) [pyRstrip x] (by simp) (by simp)]
          rw [show joinNL [pyRstrip x] = pyRstrip x from rfl]
          rw [String.data_append, String.data_append]
          rw [show ("\n" : String).data = ['\n'] from rfl, List.append_assoc]
          rfl
        apply String.ext
        show pyStripL (joinNL (hd :: (bs ++ [x]))).data
            = (joinNL (hd :: (bs ++ [pyRstrip x]))).data
        rw [hD, hD2]
        simp only [pyStripL]
        rw [hdw]
        exact hmain

/-! ### Replay machinery for the round-trip claim

The concatenated spans re-parse block by block: a block is a header line
followed by its cleaned body lines.  `blockRec` computes the record a block
contributes, and `replayAux` shows the main loop over the flattened blocks
produces exactly those records. -/

/-- Fold `classStep` over a list of already-stripped lines. -/
def coreRun : Core → List String → Except PyErr Core
  | c, [] => .ok c
  | c, s :: ss =>
      match classStep c s with
      | .error e => .error e
      | .ok c' => coreRun c' ss

/-- Run the stripped lines, then flush the pending matrix. -/
def flushRun (c : Core) (ls : List String) : Except PyErr Core :=
  match coreRun c ls with
  | .error e => .error e
  | .ok d => _finalize_matrix d

/-- The per-record core state created by the header branch of the main
loop, when the header regex captures. -/
def hdrCoreOf (h : String) : Option Core :=
  match headerSearch h with
  | none => none
  | some (ds, lab) =>
      some ⟨[("cp_index", .vint (digitsToNat ds)), ("cp_type", .vstr (pyStrip ⟨lab⟩))],
            [("cp_index", "CP index"), ("cp_type", "CP type")], none, []⟩

/-- The record contributed by one replayed block: header capture, body
processing, then finalization. -/
def blockRec (h : String) (cb : List String) : Except PyErr Rec :=
  match hdrCoreOf h with
  | none => .error .indexError
  | some c0 =>
      match coreRun c0 (cb.map pyStrip) with
      | .error e => .error e
      | .ok c' => finalizeBuilder ⟨c', h :: cb⟩

/-- `blockRec` over a block list, collecting the records. -/
def mapMblockRec : List (String × List String) → Except PyErr (List Rec)
  | [] => .ok []
  | bl :: rest =>
      match blockRec bl.1 bl.2 with
      | .error e => .error e
      | .ok r =>
          match mapMblockRec rest with
          | .error e => .error e
          | .ok rs => .ok (r :: rs)

/-- The line list of a block list. -/
def flatBlocks : List (String × List String) → List String
  | [] => []
  | bl :: rest => (bl.1 :: bl.2) ++ flatBlocks rest

/-- The records a final `finalize_current` would append for the optional
open builder. -/
def finPend : Option Builder → Except PyErr (List Rec)
  | none => .ok []
  | some b =>
      match finalizeBuilder b with
      | .error e => .error e
      | .ok r => .ok [r]

/-- The tail of `parse_cp_file` from an arbitrary state: run the remaining
lines, apply the final `finalize_current`, return the records. -/
def parseFrom (st : PState) (ls : List String) : Except PyErr (List Rec) :=
  match runLines st ls with
  | .error e => .error e
  | .ok st1 =>
      match finalizeStep st1 with
      | .error e => .error e
      | .ok st2 => .ok st2.cps

/-- A block the replay handles like the original parse did: a stripped
true header and body lines that are not headers, newline-free and
`rstrip("\n")`-fixed. -/
def BlockWF (h : String) (cb : List String) : Prop :=
  pseudoHeader h = true ∧ pyStrip h = h ∧ '\n' ∉ h.data ∧
    ∀ l ∈ cb, pseudoHeader (pyStrip l) = false ∧ pyRstripNL l = l ∧ '\n' ∉ l.data

theorem parse_cp_lines_eq_parseFrom (ls : List String) :
    parse_cp_lines ls = parseFrom ⟨[], none⟩ ls := rfl

theorem coreRun_append (a b : List String) : ∀ c : Core,
    coreRun c (a ++ b) =
      match coreRun c a with
      | .error e => .error e
      | .ok m => coreRun m b := by
  induction a with
  | nil =>
      intro c
      simp [coreRun]
  | cons s ss ih =>
      intro c
      rw [List.cons_append]
      show (match classStep c s with
            | Except.error e => Except.error e
            | Except.ok c' => coreRun c' (ss ++ b)) = _
      rcases hcs : classStep c s with e | c'
      · rw [show coreRun c (s :: ss) = .error e from by
          simp only [coreRun, hcs]]
      · rw [show coreRun c (s :: ss) = coreRun c' ss from by
          simp only [coreRun, hcs]]
        exact ih c'

theorem runLines_append (a b : List String) : ∀ st : PState,
    runLines st (a ++ b) =
      match runLines st a with
      | .error e => .error e
      | .ok m => runLines m b := by
  induction a with
  | nil =>
      intro st
      simp [runLines]
  | cons l ls ih =>
      intro st
      rw [List.cons_append]
      show (match stepLine st l with
            | Except.error e => Except.error e
            | Except.ok st' => runLines st' (ls ++ b)) = _
      rcases hs : stepLine st l with e | st'
      · rw [show runLines st (l :: ls) = .error e from by
          simp only [runLines, hs]]
      · rw [show runLines st (l :: ls) = runLines st' ls from by
          simp only [runLines, hs]]
        exact ih st'

theorem parseFrom_append (a b : List String) (st : PState) :
    parseFrom st (a ++ b) =
      match runLines st a with
      | .error e => .error e
      | .ok m => parseFrom m b := by
  simp only [parseFrom, runLines_append a b st]
  rcases hs : runLines st a with e | m <;> rfl

theorem classStep_empty (c : Core) : classStep c "" = _finalize_matrix c := by
  simp [classStep]

theorem flushIdem (c d : Core) (h : _finalize_matrix c = .ok d) :
    _finalize_matrix d = .ok d := by
  obtain ⟨hk, hr, -⟩ := finalize_matrix_shape c d h
  rcases d with ⟨dd, dkm, dmk, dmr⟩
  dsimp only at hk hr
  subst hk
  subst hr
  simp [_finalize_matrix, truthyKey]

theorem flushRun_snoc_empty (c : Core) (ls : List String) :
    flushRun c (ls ++ [""]) = flushRun c ls := by
  simp only [flushRun, coreRun_append ls [""] c]
  rcases hr : coreRun c ls with e | m
  · rfl
  · show (match (match classStep m "" with
        | Except.error e => Except.error e
        | Except.ok c' => coreRun c' []) with
      | Except.error e => Except.error e
      | Except.ok d => _finalize_matrix d) = _finalize_matrix m
    rw [classStep_empty m]
    rcases hf : _finalize_matrix m with e | m1
    · rfl
    · exact flushIdem m m1 hf

theorem flushRun_clean (body : List String) : ∀ c : Core,
    flushRun c ((cleanTrail body).map pyStrip) = flushRun c (body.map pyStrip) := by
  induction body using List.reverseRecOn with
  | nil =>
      intro c
      rfl
  | append_singleton bs x ih =>
      intro c
      by_cases hxb : isBlankL x = true
      · rw [cleanTrail_concat_blank bs x hxb]
        rw [show (bs ++ [x]).map pyStrip = bs.map pyStrip ++ [""] from by
          rw [List.map_append]
          simp [isBlankL_strip x hxb]]
        rw [flushRun_snoc_empty c (bs.map pyStrip)]
        exact ih c
      · have hxb' : isBlankL x = false := Bool.eq_false_iff.mpr hxb
        rw [cleanTrail_concat_nonblank bs x hxb']
        rw [List.map_append, List.map_append]
        rw [show [pyRstrip x].map pyStrip = [x].map pyStrip from by
          simp [pyStrip_rstrip x]]

theorem runLines_body : ∀ (ls : List String) (cps : List Rec) (b : Builder),
    (∀ l ∈ ls, pseudoHeader (pyStrip l) = false ∧ pyRstripNL l = l) →
    runLines ⟨cps, some b⟩ ls =
      match coreRun b.core (ls.map pyStrip) with
      | .error e => .error e
      | .ok c' => .ok ⟨cps, some ⟨c', b.rawLines ++ ls⟩⟩ := by
  intro ls
  induction ls with
  | nil =>
      intro cps b _
      simp [runLines, coreRun]
  | cons l rest ih =>
      intro cps b h
      obtain ⟨hph, hrs⟩ := h l (by simp)
      have hstep : stepLine ⟨cps, some b⟩ l
          = match classStep b.core (pyStrip l) with
            | Except.error e => Except.error e
            | Except.ok c' => Except.ok ⟨cps, some ⟨c', b.rawLines ++ [l]⟩⟩ := by
        simp only [stepLine, hph]
        rw [if_neg (by simp)]
        rw [hrs]
      rw [show runLines ⟨cps, some b⟩ (l :: rest)
          = match stepLine ⟨cps, some b⟩ l with
            | Except.error e => Except.error e
            | Except.ok st' => runLines st' rest from rfl]
      rw [hstep]
      rcases hcs : classStep b.core (pyStrip l) with e | c'
      · rw [show coreRun b.core ((l :: rest).map pyStrip) = .error e from by
          simp only [List.map_cons, coreRun, hcs]]
      · dsimp only
        rw [ih cps ⟨c', b.rawLines ++ [l]⟩ (fun x hx => h x (by simp [hx]))]
        rw [show coreRun b.core ((l :: rest).map pyStrip)
            = coreRun c' (rest.map pyStrip) from by
          simp only [List.map_cons, coreRun, hcs]]
        rcases hcr : coreRun c' (rest.map pyStrip) with e | c2
        · rfl
        · dsimp only
          rw [List.append_assoc]
          rfl

theorem replayAux : ∀ (blocks : List (String × List String)) (cps : List Rec)
    (ob : Option Builder) (pend rsOut : List Rec),
    (∀ bl ∈ blocks, BlockWF bl.1 bl.2) →
    finPend ob = .ok pend →
    mapMblockRec blocks = .ok rsOut →
    parseFrom ⟨cps, ob⟩ (flatBlocks blocks) = .ok (cps ++ pend ++ rsOut) := by
  intro blocks
  induction blocks with
  | nil =>
      intro cps ob pend rsOut _ hfp hmm
      simp only [mapMblockRec, Except.ok.injEq] at hmm
      subst hmm
      show parseFrom ⟨cps, ob⟩ [] = .ok (cps ++ pend ++ [])
      simp only [parseFrom, runLines]
      rcases ob with _ | b
      · simp only [finPend, Except.ok.injEq] at hfp
        subst hfp
        simp [finalizeStep]
      · simp only [finPend] at hfp
        rcases hfb : finalizeBuilder b with e | r
        · rw [hfb] at hfp
          exact Except.noConfusion hfp
        · rw [hfb] at hfp
          dsimp only at hfp
          simp only [Except.ok.injEq] at hfp
          subst hfp
          simp [finalizeStep, hfb]
  | cons bl rest ih =>
      intro cps ob pend rsOut hwf hfp hmm
      rcases bl with ⟨h, cb⟩
      obtain ⟨hph, hps, hnlh, hbody⟩ := hwf (h, cb) (by simp)
      simp only [mapMblockRec] at hmm
      rcases hbr : blockRec h cb with e | r'
      · rw [hbr] at hmm
        exact Except.noConfusion hmm
      rw [hbr] at hmm
      dsimp only at hmm
      rcases hmr : mapMblockRec rest with e2 | rs2
      · rw [hmr] at hmm
        exact Except.noConfusion hmm
      rw [hmr] at hmm
      dsimp only at hmm
      simp only [Except.ok.injEq] at hmm
      subst hmm
      simp only [blockRec] at hbr
      rcases hhc : hdrCoreOf h with _ | c0
      · rw [hhc] at hbr
        exact Except.noConfusion hbr
      rw [hhc] at hbr
      dsimp only at hbr
      rcases hcr : coreRun c0 (cb.map pyStrip) with e3 | c'
      · rw [hcr] at hbr
        exact Except.noConfusion hbr
      rw [hcr] at hbr
      dsimp only at hbr
      simp only [hdrCoreOf] at hhc
      rcases hhs : headerSearch h with _ | ⟨ds, lab⟩
      · rw [hhs] at hhc
        exact Option.noConfusion hhc
      rw [hhs] at hhc
      dsimp only at hhc
      simp only [Option.some.injEq] at hhc
      have hfs : finalizeStep ⟨cps, ob⟩ = .ok ⟨cps ++ pend, none⟩ := by
        rcases ob with _ | b
        · simp only [finPend, Except.ok.injEq] at hfp
          subst hfp
          simp [finalizeStep]
        · simp only [finPend] at hfp
          rcases hfb : finalizeBuilder b with e4 | r
          · rw [hfb] at hfp
            exact Except.noConfusion hfp
          · rw [hfb] at hfp
            dsimp only at hfp
            simp only [Except.ok.injEq] at hfp
            subst hfp
            simp [finalizeStep, hfb]
      have hstep : stepLine ⟨cps, ob⟩ h = .ok ⟨cps ++ pend, some ⟨c0, [h]⟩⟩ := by
        simp only [stepLine, hps]
        rw [if_pos hph, hfs]
        dsimp only
        rw [hhs]
        dsimp only
        rw [hhc]
      have hrun : runLines ⟨cps, ob⟩ (h :: cb) = .ok ⟨cps ++ pend, some ⟨c', h :: cb⟩⟩ := by
        rw [show runLines ⟨cps, ob⟩ (h :: cb) = (match stepLine ⟨cps, ob⟩ h with
            | Except.error e => Except.error e
            | Except.ok st' => runLines st' cb) from rfl]
        rw [hstep]
        dsimp only
        rw [runLines_body cb (cps ++ pend) ⟨c0, [h]⟩
          (fun l hl => ⟨(hbody l hl).1, (hbody l hl).2.1⟩)]
        dsimp only
        rw [hcr]
        rfl
      show parseFrom ⟨cps, ob⟩ ((h :: cb) ++ flatBlocks rest) = _
      rw [parseFrom_append, hrun]
      dsimp only
      rw [ih (cps ++ pend) (some ⟨c', h :: cb⟩) [r'] rs2
        (fun b hb => hwf b (by simp [hb]))
        (by simp only [finPend, hbr])
        hmr]
      simp

/-! ### What the original parse guarantees about each finalized record -/

/-- Facts the original parse guarantees for each stored raw body line:
not a header, `rstrip("\n")`-fixed, newline-free. -/
def bodyWF (body : List String) : Prop :=
  ∀ l ∈ body, pseudoHeader (pyStrip l) = false ∧ pyRstripNL l = l ∧ '\n' ∉ l.data

/-- A finalized record arose from a stripped header line and stored body
lines, via the core state machine and `finalize_current`. -/
def GoodRec (r : Rec) : Prop :=
  ∃ (h : String) (body : List String) (c0 cEnd : Core),
    hdrCoreOf h = some c0 ∧ pseudoHeader h = true ∧ pyStrip h = h ∧
    '\n' ∉ h.data ∧ bodyWF body ∧
    coreRun c0 (body.map pyStrip) = .ok cEnd ∧
    finalizeBuilder ⟨cEnd, h :: body⟩ = .ok r

/-- The record under construction satisfies the same facts, up to its
current core state. -/
def GoodB (b : Builder) : Prop :=
  ∃ (h : String) (body : List String) (c0 : Core),
    hdrCoreOf h = some c0 ∧ pseudoHeader h = true ∧ pyStrip h = h ∧
    '\n' ∉ h.data ∧ bodyWF body ∧
    b.rawLines = h :: body ∧
    coreRun c0 (body.map pyStrip) = .ok b.core

/-- Invariant of the main loop. -/
def InvP (st : PState) : Prop :=
  (∀ r ∈ st.cps, GoodRec r) ∧ ∀ b, st.cur = some b → GoodB b

theorem finalizeBuilder_good (b : Builder) (r : Rec) (hg : GoodB b)
    (hf : finalizeBuilder b = .ok r) : GoodRec r := by
  obtain ⟨h, body, c0, hc0, hph, hps, hnl, hbw, hraw, hcr⟩ := hg
  refine ⟨h, body, c0, b.core, hc0, hph, hps, hnl, hbw, hcr, ?_⟩
  have hb : (⟨b.core, h :: body⟩ : Builder) = b := by
    rcases b with ⟨bc, brl⟩
    dsimp only at hraw ⊢
    rw [hraw]
  rw [hb]
  exact hf

theorem stepLine_good (st st1 : PState) (line : String)
    (hnl : '\n' ∉ line.data) (hinv : InvP st)
    (hs : stepLine st line = .ok st1) : InvP st1 := by
  obtain ⟨hcps, hcur⟩ := hinv
  simp only [stepLine] at hs
  by_cases hph : pseudoHeader (pyStrip line) = true
  · rw [if_pos hph] at hs
    rcases hfs : finalizeStep st with e | st2
    · rw [hfs] at hs
      exact Except.noConfusion hs
    rw [hfs] at hs
    dsimp only at hs
    have hinv2 : InvP st2 := by
      simp only [finalizeStep] at hfs
      rcases hc : st.cur with _ | b
      · rw [hc] at hfs
        dsimp only at hfs
        simp only [Except.ok.injEq] at hfs
        subst hfs
        exact ⟨hcps, hcur⟩
      · rw [hc] at hfs
        dsimp only at hfs
        rcases hfb : finalizeBuilder b with e | r
        · rw [hfb] at hfs
          exact Except.noConfusion hfs
        rw [hfb] at hfs
        dsimp only at hfs
        simp only [Except.ok.injEq] at hfs
        subst hfs
        constructor
        · intro r2 hr2
          rcases List.mem_append.mp hr2 with h1 | h1
          · exact hcps r2 h1
          · rw [List.mem_singleton] at h1
            subst h1
            exact finalizeBuilder_good b r2 (hcur b hc) hfb
        · intro b2 hb2
          exact Option.noConfusion hb2
    rcases hhs : headerSearch (pyStrip line) with _ | ⟨ds, lab⟩
    · rw [hhs] at hs
      dsimp only at hs
      simp only [Except.ok.injEq] at hs
      subst hs
      exact hinv2
    · rw [hhs] at hs
      dsimp only at hs
      simp only [Except.ok.injEq] at hs
      subst hs
      constructor
      · intro r hr
        exact hinv2.1 r hr
      · intro b hb
        simp only [Option.some.injEq] at hb
        subst hb
        refine ⟨pyStrip line, [], _, ?_, hph, pyStrip_idem line, ?_, ?_, rfl, rfl⟩
        · simp only [hdrCoreOf, hhs]
        · intro hc
          exact hnl (pyStripL_mem line.data '\n' hc)
        · intro l hl
          exact absurd hl (by simp)
  · rw [if_neg hph] at hs
    rcases hc : st.cur with _ | b
    · rw [hc] at hs
      dsimp only at hs
      simp only [Except.ok.injEq] at hs
      subst hs
      exact ⟨hcps, hcur⟩
    · rw [hc] at hs
      dsimp only at hs
      rcases hcs : classStep b.core (pyStrip line) with e | c'
      · rw [hcs] at hs
        exact Except.noConfusion hs
      rw [hcs] at hs
      dsimp only at hs
      simp only [Except.ok.injEq] at hs
      subst hs
      constructor
      · intro r hr
        exact hcps r hr
      · intro b2 hb2
        simp only [Option.some.injEq] at hb2
        subst hb2
        obtain ⟨h, body, c0, hc0, hph2, hps2, hnl2, hbw, hraw, hcr⟩ := hcur b hc
        refine ⟨h, body ++ [pyRstripNL line], c0, hc0, hph2, hps2, hnl2, ?_, ?_, ?_⟩
        · intro l hl
          rcases List.mem_append.mp hl with h1 | h1
          · exact hbw l h1
          · rw [List.mem_singleton] at h1
            subst h1
            rw [noNL_rstripNL line hnl]
            exact ⟨Bool.eq_false_iff.mpr hph, noNL_rstripNL line hnl, hnl⟩
        · dsimp only
          rw [hraw]
          simp
        · rw [List.map_append, coreRun_append]
          rw [hcr]
          dsimp only
          rw [show ([pyRstripNL line].map pyStrip) = [pyStrip line] from by
            rw [noNL_rstripNL line hnl]
            rfl]
          show (match classStep b.core (pyStrip line) with
            | Except.error e => Except.error e
            | Except.ok c2 => coreRun c2 []) = _
          rw [hcs]
          rfl

theorem runLines_good : ∀ (lines : List String) (st st' : PState),
    (∀ l ∈ lines, '\n' ∉ l.data) → InvP st →
    runLines st lines = .ok st' → InvP st' := by
  intro lines
  induction lines with
  | nil =>
      intro st st' _ hinv hr
      simp only [runLines, Except.ok.injEq] at hr
      subst hr
      exact hinv
  | cons l ls ih =>
      intro st st' hnl hinv hr
      rw [show runLines st (l :: ls) = (match stepLine st l with
          | Except.error e => Except.error e
          | Except.ok st1 => runLines st1 ls) from rfl] at hr
      rcases hs : stepLine st l with e | st1
      · rw [hs] at hr
        exact Except.noConfusion hr
      rw [hs] at hr
      dsimp only at hr
      exact ih st1 st' (fun x hx => hnl x (by simp [hx]))
        (stepLine_good st st1 l (hnl l (by simp)) hinv hs) hr

theorem parse_good (lines : List String) (rs : List Rec)
    (hnl : ∀ l ∈ lines, '\n' ∉ l.data)
    (hp : parse_cp_lines lines = .ok rs) :
    ∀ r ∈ rs, GoodRec r := by
  simp only [parse_cp_lines] at hp
  rcases hr : runLines ⟨[], none⟩ lines with e | st
  · rw [hr] at hp
    exact Except.noConfusion hp
  rw [hr] at hp
  dsimp only at hp
  have hinv : InvP st := runLines_good lines ⟨[], none⟩ st hnl
    ⟨by simp, by intro b hb; exact Option.noConfusion hb⟩ hr
  rcases hfs : finalizeStep st with e | st2
  · rw [hfs] at hp
    exact Except.noConfusion hp
  rw [hfs] at hp
  dsimp only at hp
  simp only [Except.ok.injEq] at hp
  subst hp
  simp only [finalizeStep] at hfs
  rcases hc : st.cur with _ | b
  · rw [hc] at hfs
    dsimp only at hfs
    simp only [Except.ok.injEq] at hfs
    subst hfs
    exact hinv.1
  · rw [hc] at hfs
    dsimp only at hfs
    rcases hfb : finalizeBuilder b with e | r
    · rw [hfb] at hfs
      exact Except.noConfusion hfs
    rw [hfb] at hfs
    dsimp only at hfs
    simp only [Except.ok.injEq] at hfs
    subst hfs
    intro r2 hr2
    rcases List.mem_append.mp hr2 with h1 | h1
    · exact hinv.1 r2 h1
    · rw [List.mem_singleton] at h1
      subst h1
      exact finalizeBuilder_good b r2 (hinv.2 b hc) hfb

/-! ### The raw span of a record, and per-record replay -/

/-- The raw captured span a finalized record stores under `raw_block`. -/
def rawSpan (r : Rec) : String :=
  match lookupA r "raw_block" with
  | some (.vstr s) => s
  | _ => ""

theorem rawSpan_eq (d : Rec) (km : List (String × String)) (s : String) :
    rawSpan (setOrd (setOrd d "raw_block" (.vstr s)) "key_map" (.vdict km)) = s := by
  simp only [rawSpan]
  rw [lookupA_setOrd_ne _ "key_map" "raw_block" _ (by decide)]
  rw [lookupA_setOrd_self]

theorem exIT_setOrd (d : Rec) (km : List (String × String)) (s : String) :
    exIT (setOrd (setOrd d "raw_block" (.vstr s)) "key_map" (.vdict km))
      = (lookupA d "cp_index", lookupA d "cp_type") := by
  simp only [exIT]
  rw [lookupA_setOrd_ne _ "key_map" "cp_index" _ (by decide),
    lookupA_setOrd_ne _ "raw_block" "cp_index" _ (by decide),
    lookupA_setOrd_ne _ "key_map" "cp_type" _ (by decide),
    lookupA_setOrd_ne _ "raw_block" "cp_type" _ (by decide)]

theorem finalizeBuilder_decomp (b : Builder) (r : Rec)
    (hf : finalizeBuilder b = .ok r) :
    ∃ cf : Core, _finalize_matrix b.core = .ok cf ∧
      r = setOrd (setOrd cf.dict "raw_block"
            (.vstr (pyStrip (joinNL b.rawLines)))) "key_map" (.vdict cf.keyMap) := by
  simp only [finalizeBuilder] at hf
  rcases hfm : _finalize_matrix b.core with e | cf
  · rw [hfm] at hf
    exact Except.noConfusion hf
  rw [hfm] at hf
  dsimp only at hf
  simp only [Except.ok.injEq] at hf
  exact ⟨cf, rfl, hf.symm⟩

theorem blockRec_clean (h : String) (body : List String) (c0 cEnd : Core) (r : Rec)
    (hc0 : hdrCoreOf h = some c0)
    (hrun : coreRun c0 (body.map pyStrip) = .ok cEnd)
    (hfin : finalizeBuilder ⟨cEnd, h :: body⟩ = .ok r) :
    ∃ r', blockRec h (cleanTrail body) = .ok r' ∧ exIT r' = exIT r := by
  obtain ⟨cf, hfm, hre⟩ := finalizeBuilder_decomp ⟨cEnd, h :: body⟩ r hfin
  have hflush : flushRun c0 ((cleanTrail body).map pyStrip) = .ok cf := by
    rw [flushRun_clean body c0]
    simp only [flushRun, hrun]
    exact hfm
  rcases hcr2 : coreRun c0 ((cleanTrail body).map pyStrip) with e | m
  · rw [show flushRun c0 ((cleanTrail body).map pyStrip) = .error e from by
      simp only [flushRun, hcr2]] at hflush
    exact Except.noConfusion hflush
  have hfm2 : _finalize_matrix m = .ok cf := by
    rw [show flushRun c0 ((cleanTrail body).map pyStrip) = _finalize_matrix m from by
      simp only [flushRun, hcr2]] at hflush
    exact hflush
  refine ⟨setOrd (setOrd cf.dict "raw_block"
      (.vstr (pyStrip (joinNL (h :: cleanTrail body))))) "key_map" (.vdict cf.keyMap),
    ?_, ?_⟩
  · simp only [blockRec, hc0, hcr2]
    simp only [finalizeBuilder]
    rw [hfm2]
  · rw [hre]
    rw [exIT_setOrd, exIT_setOrd]

theorem rawSpan_good (h : String) (body : List String) (cEnd : Core) (r : Rec)
    (hph : pseudoHeader h = true) (hps : pyStrip h = h)
    (hfin : finalizeBuilder ⟨cEnd, h :: body⟩ = .ok r) :
    rawSpan r = joinNL (h :: cleanTrail body) := by
  obtain ⟨cf, hfm, hre⟩ := finalizeBuilder_decomp ⟨cEnd, h :: body⟩ r hfin
  rw [hre, rawSpan_eq]
  have hhd : h.data.head? = some '-' := pseudoHeader_head h hph
  have hne : h.data ≠ [] := by
    intro he
    rw [he] at hhd
    exact Option.noConfusion hhd
  have hsl : pyStripL h.data = h.data := by
    have := congrArg String.data hps
    exact this
  apply strip_join h body hne
  · intro c hc
    rw [hhd] at hc
    simp only [Option.some.injEq] at hc
    subst hc
    decide
  · rw [rdropWhileL_eq]
    exact (pyStripL_eq_self h.data hsl).2

theorem assembleBlocks : ∀ rs : List Rec, (∀ r ∈ rs, GoodRec r) →
    ∃ (blocks : List (String × List String)) (rs' : List Rec),
      rs.map rawSpan = blocks.map (fun bl => joinNL (bl.1 :: bl.2)) ∧
      (∀ bl ∈ blocks, BlockWF bl.1 bl.2) ∧
      (∀ bl ∈ blocks, (bl.1 :: bl.2).getLast? ≠ some "") ∧
      mapMblockRec blocks = .ok rs' ∧
      rs'.map exIT = rs.map exIT ∧ rs'.length = rs.length := by
  intro rs
  induction rs with
  | nil =>
      intro _
      exact ⟨[], [], rfl, by simp, by simp, rfl, rfl, rfl⟩
  | cons r rest ih =>
      intro hg
      obtain ⟨blocks, rs2, hspan, hwf, hlast, hmm, hex, hlen⟩ :=
        ih (fun x hx => hg x (by simp [hx]))
      obtain ⟨h, body, c0, cEnd, hc0, hph, hps, hnlh, hbw, hrun, hfin⟩ := hg r (by simp)
      obtain ⟨r', hbr, hex'⟩ := blockRec_clean h body c0 cEnd r hc0 hrun hfin
      have hhne : h ≠ "" := by
        intro he
        have hhd := pseudoHeader_head h hph
        rw [he] at hhd
        exact Option.noConfusion hhd
      refine ⟨(h, cleanTrail body) :: blocks, r' :: rs2, ?_, ?_, ?_, ?_, ?_, ?_⟩
      · simp only [List.map_cons]
        rw [hspan, rawSpan_good h body cEnd r hph hps hfin]
      · intro bl hbl
        rcases List.mem_cons.mp hbl with h1 | h1
        · subst h1
          refine ⟨hph, hps, hnlh, ?_⟩
          intro l hl
          rcases cleanTrail_mem body l hl with h2 | ⟨z, hz, he⟩
          · exact hbw l h2
          · subst he
            obtain ⟨hz1, hz2, hz3⟩ := hbw z hz
            have hnlz : '\n' ∉ (pyRstrip z).data := fun hc =>
              hz3 (rdropWhileL_mem pyIsSpace z.data '\n' hc)
            exact ⟨by rw [pyStrip_rstrip z]; exact hz1, noNL_rstripNL _ hnlz, hnlz⟩
        · exact hwf bl h1
      · intro bl hbl
        rcases List.mem_cons.mp hbl with h1 | h1
        · subst h1
          show (h :: cleanTrail body).getLast? ≠ some ""
          rcases hct : cleanTrail body with _ | ⟨y, ys⟩
          · intro hcon
            simp only [List.getLast?_singleton, Option.some.injEq] at hcon
            exact hhne hcon
          · rw [List.getLast?_cons_cons]
            intro hcon
            exact cleanTrail_last body "" (by rw [hct]; exact hcon) rfl
        · exact hlast bl h1
      · simp only [mapMblockRec, hbr, hmm]
      · simp only [List.map_cons, hex', hex]
      · simp [hlen]

theorem flatBlocks_eq_flatten (blocks : List (String × List String)) :
    flatBlocks blocks = (blocks.map (fun bl => bl.1 :: bl.2)).flatten := by
  induction blocks with
  | nil => rfl
  | cons bl rest ih => simp [flatBlocks, ih]

theorem mem_flatBlocks (blocks : List (String × List String)) (l : String)
    (h : l ∈ flatBlocks blocks) : ∃ bl ∈ blocks, l = bl.1 ∨ l ∈ bl.2 := by
  induction blocks with
  | nil => simp [flatBlocks] at h
  | cons bl rest ih =>
      simp only [flatBlocks, List.mem_append] at h
      rcases h with h1 | h1
      · rcases List.mem_cons.mp h1 with h2 | h2
        · exact ⟨bl, by simp, Or.inl h2⟩
        · exact ⟨bl, by simp, Or.inr h2⟩
      · obtain ⟨bl2, hbl2, h3⟩ := ih h1
        exact ⟨bl2, by simp [hbl2], h3⟩

theorem getLast?_append_ne (a b : List String) (hb : b ≠ []) :
    (a ++ b).getLast? = b.getLast? := by
  rw [← List.head?_reverse, List.reverse_append,
    List.head?_append_of_ne_nil _ (by simpa using hb), List.head?_reverse]

theorem flatBlocks_getLast (blocks : List (String × List String))
    (hne : blocks ≠ [])
    (hlast : ∀ bl ∈ blocks, (bl.1 :: bl.2).getLast? ≠ some "") :
    (flatBlocks blocks).getLast? ≠ some "" := by
  induction blocks with
  | nil => exact absurd rfl hne
  | cons bl rest ih =>
      rcases hr : rest with _ | ⟨bl2, rest2⟩
      · subst hr
        rw [show flatBlocks [bl] = bl.1 :: bl.2 from by simp [flatBlocks]]
        exact hlast bl (by simp)
      · subst hr
        rw [show flatBlocks (bl :: bl2 :: rest2)
            = (bl.1 :: bl.2) ++ flatBlocks (bl2 :: rest2) from rfl]
        rw [getLast?_append_ne _ _ (by simp [flatBlocks])]
        exact ih (by simp) (fun x hx => hlast x (by simp [hx]))

/-- C6: segmentation is stable under re-application.  For a newline-free
input whose parse succeeds, concatenating each finalized record's raw
captured span (its `raw_block`, joined with the line separator) and
re-running the segmenter over that concatenation produces the same number
of records with the same stored `cp_index`/`cp_type` values, in order. -/
theorem C6_segmentation_roundtrip (lines : List String) (rs : List Rec)
    (hnl : ∀ l ∈ lines, '\n' ∉ l.data)
    (hp : parse_cp_lines lines = .ok rs) :
    ∃ rs' : List Rec, parse_cp_file (joinNL (rs.map rawSpan)) = .ok rs' ∧
      rs'.length = rs.length ∧ rs'.map exIT = rs.map exIT := by
  have hg := parse_good lines rs hnl hp
  obtain ⟨blocks, rs', hspan, hwf, hlast, hmm, hex, hlen⟩ := assembleBlocks rs hg
  rcases hrs : rs with _ | ⟨r0, rtail⟩
  · subst hrs
    exact ⟨[], rfl, rfl, rfl⟩
  · subst hrs
    have hbne : blocks ≠ [] := by
      intro he
      rw [he] at hspan
      simp at hspan
    have hjoin : joinNL ((r0 :: rtail).map rawSpan) = joinNL (flatBlocks blocks) := by
      rw [hspan]
      rw [show (blocks.map fun bl => joinNL (bl.1 :: bl.2))
          = ((blocks.map fun bl => bl.1 :: bl.2).map joinNL) from by
        rw [List.map_map]
        rfl]
      rw [joinNL_flatten _ (by
        intro L hL
        simp only [List.mem_map] at hL
        obtain ⟨bl, _, he⟩ := hL
        rw [← he]
        simp)]
      rw [← flatBlocks_eq_flatten]
    have hsplit : splitNL (joinNL (flatBlocks blocks)) = flatBlocks blocks := by
      apply splitNL_joinNL
      · intro l hl
        obtain ⟨bl, hbl, hor⟩ := mem_flatBlocks blocks l hl
        obtain ⟨hph2, hps2, hnlh2, hbody2⟩ := hwf bl hbl
        rcases hor with h1 | h1
        · rw [h1]
          exact hnlh2
        · exact (hbody2 l h1).2.2
      · rcases blocks with _ | ⟨bl, rest⟩
        · exact absurd rfl hbne
        · simp [flatBlocks]
      · exact flatBlocks_getLast blocks hbne hlast
    refine ⟨rs', ?_, hlen, hex⟩
    show parse_cp_lines (splitNL (joinNL ((r0 :: rtail).map rawSpan))) = .ok rs'
    rw [hjoin, hsplit, parse_cp_lines_eq_parseFrom]
    have hrep := replayAux blocks [] none [] rs' hwf rfl hmm
    simpa using hrep

/-- Input of the C6 witness: two records, the first with a nucleus line, a
pending matrix and a trailing blank line. -/
def c6lines : List String :=
  ["----------------   CP 1,     Type (3,-3)   ----------------",
   "Corresponding nucleus:     1(H )",
   "Density of all electrons:  0.4D+00",
   "Hessian matrix:",
   "  1.0  2.0",
   "  3.0  4.0",
   "",
   "----------------   CP 2,     Type (3,-1)   ----------------",
   "Position: 0.1 0.2 0.3"]

/-- The records the original parse produces on `c6lines`. -/
def c6recs : List Rec :=
  match parse_cp_lines c6lines with
  | .ok rs => rs
  | .error _ => []

set_option maxRecDepth 20000 in
/-- Witness for C6: the round-trip at the concrete two-record input, with
both hypotheses (newline-free lines, successful parse) discharged. -/
theorem C6_witness :
    ∃ rs' : List Rec, parse_cp_file (joinNL (c6recs.map rawSpan)) = .ok rs' ∧
      rs'.length = c6recs.length ∧ rs'.map exIT = c6recs.map exIT :=
  C6_segmentation_roundtrip c6lines c6recs (by decide) (by decide)
